import Mathlib

/-!
Verification of the windpipe stream library against its specification.

The development shallowly embeds the library (src/src/atom.ts, src/src/handler.ts,
src/src/stream/transforms.ts, the higher-order stream file and the stream base file)
as pure Lean functions over lists of atoms.  Asynchronous callbacks that may throw
are modelled as total functions into `Except υ _`, where the `Except.error` branch
is the thrown/rejected payload.  Combinators whose behaviour depends on the timing
of concurrent operations (batch with timeout, merge, the buffered map) are modelled
as deterministic machines driven by an explicit event list or schedule that resolves
every race, so that each concrete interleaving of the real program corresponds to
one schedule of the model.
-/

namespace Windpipe

/-- Model of the tagged union from src/src/atom.ts: an atom is `Ok(value)`,
`Err(error)` or `Exception(payload, trace)`.  The payload type of exceptions
(`unknown` in the source) is the parameter `υ`, which is also the type of
values thrown by user callbacks. -/
inductive Atom (α ε υ : Type) where
  | ok (value : α)
  | err (error : ε)
  | exception (payload : υ) (trace : List String)
deriving DecidableEq, Repr

namespace Atom

/-- Model of `isOk` from src/src/atom.ts. -/
def isOk {α ε υ : Type} : Atom α ε υ → Bool
  | .ok _ => true
  | _ => false

/-- Model of `isError` from src/src/atom.ts. -/
def isError {α ε υ : Type} : Atom α ε υ → Bool
  | .err _ => true
  | _ => false

/-- Model of `isException` from src/src/atom.ts. -/
def isException {α ε υ : Type} : Atom α ε υ → Bool
  | .exception _ _ => true
  | _ => false

end Atom

/-- Model of `MaybeAtom<T, E> = T | Atom<T, E>` from src/src/atom.ts.  In the
source the two cases are told apart structurally at runtime by `normalise`;
the sum tag plays that role here. -/
inductive MaybeAtom (α ε υ : Type) where
  | value (v : α)
  | atom (a : Atom α ε υ)
deriving DecidableEq, Repr

/-- Model of `normalise` from src/src/atom.ts: an already-tagged atom is kept,
any other value becomes an `Ok` atom. -/
def normalise {α ε υ : Type} : MaybeAtom α ε υ → Atom α ε υ
  | .value v => .ok v
  | .atom a => a

/-- Model of `run` from the handler file: the callback result is awaited; a
normal completion becomes an `Ok` atom, a thrown value becomes an `Exception`
atom carrying the current trace.  A callback is a total function into
`Except υ _` whose error branch is the thrown payload. -/
def run {ρ ε υ : Type} (result : Except υ ρ) (trace : List String) : Atom ρ ε υ :=
  match result with
  | .ok v => .ok v
  | .error e => .exception e trace

/-- Model of `handler` from the handler file: as `run`, but the returned value
is additionally passed through `normalise`, so a plain value becomes `Ok` and
an already-tagged atom passes through unchanged. -/
def handler {α ε υ : Type} (result : Except υ (MaybeAtom α ε υ)) (trace : List String) :
    Atom α ε υ :=
  match result with
  | .error e => .exception e trace
  | .ok m => normalise m

/-- Model of `map` from src/src/stream/transforms.ts: each `Ok` atom is passed
through the guarded `handler`; every other atom is re-emitted unchanged. -/
def map {α β ε υ : Type} (cb : α → Except υ (MaybeAtom β ε υ)) (trace : List String) :
    List (Atom α ε υ) → List (Atom β ε υ)
  | [] => []
  | .ok v :: rest => handler (cb v) trace :: map cb trace rest
  | .err e :: rest => .err e :: map cb trace rest
  | .exception p t :: rest => .exception p t :: map cb trace rest

/-- Model of the wrapper that `tap` (src/src/stream/transforms.ts) passes to
`map`: the user callback is invoked inside a try/catch of its own; a thrown
value is caught and logged (the log is invisible to the model) and the original
value is returned either way. -/
def tapWrap {α ε υ : Type} (cb : α → Except υ Unit) (v : α) : Except υ (MaybeAtom α ε υ) :=
  match cb v with
  | .ok _ => .ok (.value v)
  | .error _ => .ok (.value v)

/-- Model of `tap` from src/src/stream/transforms.ts. -/
def tap {α ε υ : Type} (cb : α → Except υ Unit) (trace : List String) :
    List (Atom α ε υ) → List (Atom α ε υ) :=
  map (tapWrap cb) trace

/-- Payload of any atom, as the untyped `atom.value` read by `filter` in
src/src/stream/transforms.ts; since the source reads it at type `T` through a
cast, the model instantiates all three payload types with one type `γ`. -/
def payload {γ : Type} : Atom γ γ γ → γ
  | .ok v => v
  | .err e => e
  | .exception p _ => p

/-- Model of `filter` from src/src/stream/transforms.ts, restricted to
conditions that return a plain boolean and never throw (so the guarded call
`handler(() => condition(atom.value))` always yields `Ok` of that boolean).
Following the source, a non-`Ok` atom is first re-emitted, and then the
condition is still run on `atom.value`; a truthy result re-emits the atom a
second time. -/
def filter {γ : Type} (condition : γ → Bool) : List (Atom γ γ γ) → List (Atom γ γ γ)
  | [] => []
  | a :: rest =>
    (if a.isOk then [] else [a]) ++
      (if condition (payload a) then [a] else []) ++ filter condition rest

/-- Loop body of `take` from src/src/stream/transforms.ts.  `i` is the count of
atoms consumed so far; every atom is counted, only `Ok` atoms (or all atoms
when `atoms` is set) are emitted, and the loop breaks once `i` reaches `n`.
The second component counts how many atoms were pulled from upstream. -/
def takeGo {α ε υ : Type} (atoms : Bool) (n : Int) (i : Nat) :
    List (Atom α ε υ) → List (Atom α ε υ) × Nat
  | [] => ([], 0)
  | a :: rest =>
    let yielded := if a.isOk || atoms then [a] else []
    if ((i : Int) + 1) ≥ n then (yielded, 1)
    else
      let r := takeGo atoms n (i + 1) rest
      (yielded ++ r.1, r.2 + 1)

/-- Model of `take` from src/src/stream/transforms.ts: for `n ≤ 0` the
generator returns before ever pulling from upstream. -/
def take {α ε υ : Type} (n : Int) (atoms : Bool) (input : List (Atom α ε υ)) :
    List (Atom α ε υ) × Nat :=
  if n ≤ 0 then ([], 0) else takeGo atoms n 0 input

/-- Model of `drop` from src/src/stream/transforms.ts.  When `atoms` is unset a
non-`Ok` atom is skipped entirely (the `continue` in the source, which also
skips the counter increment); otherwise atoms beyond the first `n` are
emitted. -/
def drop {α ε υ : Type} (atoms : Bool) (n : Int) (i : Nat) :
    List (Atom α ε υ) → List (Atom α ε υ)
  | [] => []
  | a :: rest =>
    if !atoms && !a.isOk then drop atoms n i rest
    else (if (i : Int) ≥ n then [a] else []) ++ drop atoms n (i + 1) rest

/-- Model of `flatMap` from the higher-order stream file (via `flatOp`): a
non-`Ok` atom is rejected by the filter and re-emitted unchanged; for an `Ok`
atom the callback is run through `run`, a throw is emitted as a single
`Exception` atom in place of the sub-stream, and otherwise the whole
sub-stream (a materialised atom list in this model) is spliced in. -/
def flatMap {α β ε υ : Type} (cb : α → Except υ (List (Atom β ε υ))) (trace : List String) :
    List (Atom α ε υ) → List (Atom β ε υ)
  | [] => []
  | .ok v :: rest =>
    (match cb v with
      | .error e => [.exception e trace]
      | .ok sub => sub) ++ flatMap cb trace rest
  | .err e :: rest => .err e :: flatMap cb trace rest
  | .exception p t :: rest => .exception p t :: flatMap cb trace rest

/-- Lookup in an association list, modelling `Map.get` on the cache of
`cachedFlatMap`. -/
def assocFind {κ ρ : Type} [DecidableEq κ] (k : κ) : List (κ × ρ) → Option ρ
  | [] => none
  | p :: rest => if p.1 = k then some p.2 else assocFind k rest

/-- Loop of `cachedFlatMap` from the higher-order stream file.  The cache maps
a key to the fully materialised atom list of the sub-stream produced for that
key (`toArray({ atoms: true })` in the source); on a hit the cached list is
replayed, on a miss the callback is invoked through `run`: a throw emits one
`Exception` atom and caches nothing, a returned sub-stream is materialised,
cached, and spliced in.  The second component records, in order, the values
the callback was actually invoked on. -/
def cachedGo {α β ε υ κ : Type} [DecidableEq κ]
    (cb : α → Except υ (List (Atom β ε υ))) (keyFn : α → κ) (trace : List String) :
    List (Atom α ε υ) → List (κ × List (Atom β ε υ)) → List (Atom β ε υ) × List α
  | [], _ => ([], [])
  | .ok v :: rest, cache =>
    match assocFind (keyFn v) cache with
    | some sub =>
      let r := cachedGo cb keyFn trace rest cache
      (sub ++ r.1, r.2)
    | none =>
      match cb v with
      | .error e =>
        let r := cachedGo cb keyFn trace rest cache
        (.exception e trace :: r.1, v :: r.2)
      | .ok sub =>
        let r := cachedGo cb keyFn trace rest (cache ++ [(keyFn v, sub)])
        (sub ++ r.1, v :: r.2)
  | .err e :: rest, cache =>
    let r := cachedGo cb keyFn trace rest cache
    (.err e :: r.1, r.2)
  | .exception p t :: rest, cache =>
    let r := cachedGo cb keyFn trace rest cache
    (.exception p t :: r.1, r.2)

/-- Model of `cachedFlatMap` from the higher-order stream file, starting from
the empty cache; returns the emitted atoms together with the list of values on
which the callback was invoked. -/
def cachedFlatMap {α β ε υ κ : Type} [DecidableEq κ]
    (cb : α → Except υ (List (Atom β ε υ))) (keyFn : α → κ) (trace : List String)
    (input : List (Atom α ε υ)) : List (Atom β ε υ) × List α :=
  cachedGo cb keyFn trace input []

/-- Values of the `Ok` atoms of a list, in order. -/
def okValues {α ε υ : Type} : List (Atom α ε υ) → List α
  | [] => []
  | .ok v :: rest => v :: okValues rest
  | _ :: rest => okValues rest

/-- One result of the producer function handed to `Stream.fromNext` in the
stream base file: a resolved value (possibly an atom), the end-of-stream
marker, or a rejection with the thrown payload. -/
inductive NextResult (α ε υ : Type) where
  | value (v : MaybeAtom α ε υ)
  | endMarker
  | thrown (e : υ)
deriving DecidableEq, Repr

/-- Model of the `read` loop of `Stream.fromNext` from the stream base file:
each pull awaits one producer result; the end marker pushes `null` and ends
the stream, a value is normalised and emitted, and a rejection is caught and
emitted as an `Exception` atom with an empty trace, after which the stream
keeps being pulled. -/
def fromNext {α ε υ : Type} : List (NextResult α ε υ) → List (Atom α ε υ)
  | [] => []
  | .endMarker :: _ => []
  | .value v :: rest => normalise v :: fromNext rest
  | .thrown e :: rest => .exception e [] :: fromNext rest

/-- Entry placed in the buffer of `bufferedMap` (src/src/stream/transforms.ts)
for one upstream atom: an `Ok` value is passed through the guarded `handler`,
any other atom is enqueued as an already-resolved promise. -/
def bufferedEntry {α β ε υ : Type} (cb : α → Except υ (MaybeAtom β ε υ))
    (trace : List String) : Atom α ε υ → Atom β ε υ
  | .ok v => handler (cb v) trace
  | .err e => .err e
  | .exception p t => .exception p t

/-- Consumer loop of `bufferedMap`: the buffer is drained strictly in FIFO
order, each slot awaited by position.  `compl i` is the completion time of the
promise in slot `i`; the emission time of a slot is the later of its own
completion and the previous emission, which is what awaiting by position
means.  The emitted atoms themselves do not depend on `compl`. -/
def bufferedConsume {γ : Type} (compl : Nat → Nat) :
    Nat → Nat → List γ → List (γ × Nat)
  | _, _, [] => []
  | i, clock, x :: xs =>
    let t := max clock (compl i)
    (x, t) :: bufferedConsume compl (i + 1) t xs

/-- Model of `bufferedMap` from src/src/stream/transforms.ts together with the
time at which each result is emitted.  The producer loop pushes one buffer
entry per upstream atom, in arrival order; `compl` assigns each entry the time
at which its underlying async operation completes (out-of-order completions
are arbitrary `compl` functions).  The `delay`, `maxBufferSize` and
`maxBufferPeriod` options only pause the producer and so shift completion
times; they never reorder the FIFO buffer. -/
def bufferedMap {α β ε υ : Type} (compl : Nat → Nat)
    (cb : α → Except υ (MaybeAtom β ε υ)) (trace : List String)
    (input : List (Atom α ε υ)) : List (Atom β ε υ × Nat) :=
  bufferedConsume compl 0 0 (input.map (bufferedEntry cb trace))

/-!
Batch (src/src/stream/transforms.ts). The generator races the next upstream
atom against a heartbeat promise that resolves only when a `timeout` option is
present.  The model resolves every race by an explicit event list: an `atom`
event is the upstream atom winning the race, a `tick` event is the heartbeat
winning, and `endOfStream` is the upstream iterator reporting done.  Emissions
are deterministic given that event order.  The `totalBatchSize > 1000` branch
of the source only yields to the event loop and changes no emission.
-/

/-- Options of `batch`.  `n = some 0` behaves like `n` absent for the count
flush (JavaScript truthiness) but like the literal number elsewhere, so the
option is kept as written.  `timeout` records only the presence of the option,
since the model sequences timer expiries explicitly. -/
structure BatchOptions where
  n : Option Nat
  timeout : Bool
  yieldRemaining : Bool
  yieldEmpty : Bool
deriving DecidableEq, Repr

/-- Key used by the default batch bucket function `() => "default"`. -/
def defaultKey : String := "default"

/-- Combinator-local state of the batch generator: the bucket map in key
insertion order, and the running `totalBatchSize` counter. -/
structure BState (α κ : Type) where
  buckets : List (κ × List α)
  total : Int
deriving DecidableEq, Repr

/-- Initial batch state: no buckets, zero total. -/
def batchInit {α κ : Type} : BState α κ := ⟨[], 0⟩

/-- Update the bucket for a key in place, or append a new bucket at the end of
the insertion order (`batches[key] = []` on a fresh key). -/
def bucketsSet {κ ρ : Type} [DecidableEq κ] (k : κ) (r : ρ) : List (κ × ρ) → List (κ × ρ)
  | [] => [(k, r)]
  | p :: rest => if p.1 = k then (k, r) :: rest else p :: bucketsSet k r rest

/-- One `Promise.race` outcome inside the batch loop. -/
inductive BEvent (α ε υ : Type) where
  | atom (a : Atom α ε υ)
  | tick
  | endOfStream
deriving DecidableEq, Repr

/-- Heartbeat branch of the batch loop: every bucket passing
`batch.length >= (options?.n ?? 1) || options?.yieldRemaining` is flushed by
`splice(0, options?.n ?? batch.length)`, in bucket order.  Returns the updated
buckets and the flushed item lists. -/
def tickFlush {α κ : Type} (o : BatchOptions) :
    List (κ × List α) → List (κ × List α) × List (List α)
  | [] => ([], [])
  | p :: rest =>
    if o.n.getD 1 ≤ p.2.length ∨ o.yieldRemaining = true then
      let cnt := o.n.getD p.2.length
      let r := tickFlush o rest
      ((p.1, p.2.drop cnt) :: r.1, p.2.take cnt :: r.2)
    else
      let r := tickFlush o rest
      (p :: r.1, r.2)

/-- Buckets passing the heartbeat readiness filter, used for the
`ready.reduce(...) === 0` emptiness test of the source. -/
def readySum {α κ : Type} (o : BatchOptions) (buckets : List (κ × List α)) : Nat :=
  ((buckets.filter fun p => decide (o.n.getD 1 ≤ p.2.length) || o.yieldRemaining).map
    fun p => p.2.length).sum

/-- One step of the batch loop on one race outcome.  An `Ok` atom is appended
to its bucket and the bucket is flushed the instant it holds `n` items; any
other atom is yielded immediately and is never buffered.  A heartbeat tick
flushes the ready buckets, or yields one empty array when nothing is ready and
`yieldEmpty` is set; ticks can only occur when the `timeout` option exists. -/
def batchStep {α ε υ κ : Type} [DecidableEq κ] (o : BatchOptions) (bf : α → κ)
    (st : BState α κ) : BEvent α ε υ → BState α κ × List (Atom (List α) ε υ)
  | .atom (.ok v) =>
    let k := bf v
    let b := ((assocFind k st.buckets).getD []) ++ [v]
    let buckets := bucketsSet k b st.buckets
    let total := st.total + 1
    match o.n with
    | some m =>
      if m ≠ 0 ∧ m ≤ b.length then
        (⟨bucketsSet k (b.drop m) buckets, total - (m : Int)⟩, [.ok (b.take m)])
      else (⟨buckets, total⟩, [])
    | none => (⟨buckets, total⟩, [])
  | .atom (.err e) => (st, [.err e])
  | .atom (.exception p t) => (st, [.exception p t])
  | .tick =>
    if o.timeout = true then
      if readySum o st.buckets = 0 then
        (st, if o.yieldEmpty = true then [.ok []] else [])
      else
        let r := tickFlush o st.buckets
        (⟨r.1, st.total - ((r.2.map List.length).sum : Int)⟩, r.2.map .ok)
    else (st, [])
  | .endOfStream => (st, [])

/-- Splitting of a list into maximal chunks of `m` plus a short remainder;
this is the `while (batch.length >= options.n) yield splice(0, options.n)`
loop of the end-of-stream handling, written with an accumulator so that it is
structurally recursive. -/
def splitGo {α : Type} (m : Nat) (acc : List α) : List α → List (List α) × List α
  | [] => ([], acc)
  | v :: vs =>
    let acc' := acc ++ [v]
    if m ≤ acc'.length then
      let r := splitGo m [] vs
      (acc' :: r.1, r.2)
    else splitGo m acc' vs

/-- Maximal chunks of size `n` of a list, in order. -/
def fullChunks {α : Type} (n : Nat) (vs : List α) : List (List α) :=
  (splitGo n [] vs).1

/-- Remainder left after removing the maximal chunks of size `n`. -/
def chunkRest {α : Type} (n : Nat) (vs : List α) : List α :=
  (splitGo n [] vs).2

/-- End-of-upstream handling of `batch`: with a timeout, any pending items are
yielded as whole buckets (or an empty array when nothing is pending and
`yieldEmpty` is set); without a timeout but with a count, each bucket is
drained in chunks of `n` and the short remainder is yielded exactly when
`yieldRemaining` is set. -/
def batchFinish {α ε υ κ : Type} (o : BatchOptions) (st : BState α κ) :
    List (Atom (List α) ε υ) :=
  if o.timeout = true then
    if st.total > 0 ∨ o.yieldEmpty = true then
      if st.total > 0 then
        (st.buckets.filter fun p => !p.2.isEmpty).map fun p => .ok p.2
      else if o.yieldEmpty = true then [.ok []] else []
    else []
  else
    match o.n with
    | some m =>
      if m ≠ 0 ∧ st.total > 0 then
        st.buckets.flatMap fun p =>
          let r := splitGo m [] p.2
          r.1.map .ok ++ (if ¬r.2.isEmpty ∧ o.yieldRemaining = true then [.ok r.2] else [])
      else []
    | none => []

/-- Run of the batch generator over a race-outcome list: the loop exits on the
iterator-done outcome, after which the end-of-upstream flush runs; a run whose
outcomes end without the done signal is a still-live stream and produces only
what was emitted so far. -/
def batchRun {α ε υ κ : Type} [DecidableEq κ] (o : BatchOptions) (bf : α → κ)
    (st : BState α κ) : List (BEvent α ε υ) → List (Atom (List α) ε υ)
  | [] => []
  | .endOfStream :: _ => batchFinish o st
  | e :: rest =>
    let r := batchStep o bf st e
    r.2 ++ batchRun o bf r.1 rest

/-!
Merge (higher-order stream file).  The loop races one fresh pull on the outer
stream (when it is not yet exhausted) against the kept pending pull of every
open inner stream.  The model is a machine driven by a schedule of race
winners: entry `0` means the outer pull won, entry `id + 1` means the pending
pull of the inner stream with identifier `id` won.  A schedule entry naming a
source that is not being raced is a no-op, so every real interleaving is some
schedule.  Because the loop creates a brand new `outer.next()` every
iteration and only keeps pending promises for inner streams, the outer pull of
an iteration won by an inner source is discarded together with the outer
element it consumed; the model drops that element accordingly.
-/

/-- Value carried by an `Ok` atom of the outer stream: either a plain value
(emitted as-is) or a nested stream (tracked and drained concurrently); this is
the `instanceof Stream` test of the source. -/
inductive OuterVal (β ε υ : Type) where
  | plain (b : β)
  | sub (s : List (Atom β ε υ))
deriving DecidableEq, Repr

/-- State of the merge loop: the unconsumed outer elements, the
`outerExhausted` flag, every sub-stream discovered so far (by identifier, in
discovery order) and the open inner streams with their unconsumed atoms. -/
structure MState (β ε υ : Type) where
  outerRem : List (Atom (OuterVal β ε υ) ε υ)
  outerDone : Bool
  discovered : List (List (Atom β ε υ))
  inners : List (Nat × List (Atom β ε υ))
deriving DecidableEq, Repr

/-- Initial merge state for a given outer stream. -/
def mergeInit {β ε υ : Type} (outer : List (Atom (OuterVal β ε υ) ε υ)) : MState β ε υ :=
  ⟨outer, false, [], []⟩

/-- Emission of the merge loop, tagged with its source so that per-sub-stream
order can be stated. -/
inductive MOut (β ε υ : Type) where
  | fromOuter (a : Atom β ε υ)
  | fromInner (id : Nat) (a : Atom β ε υ)
deriving DecidableEq, Repr

/-- Atoms the merge output attributes to the inner stream `id`, in emission
order. -/
def innerOutputs {β ε υ : Type} (out : List (MOut β ε υ)) (id : Nat) : List (Atom β ε υ) :=
  out.filterMap fun o =>
    match o with
    | .fromInner j a => if j = id then some a else none
    | .fromOuter _ => none

/-- Remove the entry of one key from an association list (`Map.delete`). -/
def assocErase {κ ρ : Type} [DecidableEq κ] (k : κ) : List (κ × ρ) → List (κ × ρ)
  | [] => []
  | p :: rest => if p.1 = k then rest else p :: assocErase k rest

/-- One iteration of the merge loop, for one race winner.  An outer win
consumes the outer element: a done result sets `outerExhausted`, a non-`Ok`
atom or a plain value is emitted, and a nested stream is registered with a
fresh identifier.  An inner win consumes the pending pull of that stream: a done
result removes the stream, otherwise its atom is emitted and the next pull is
started; in either case the fresh outer pull of this iteration, if one was
raced, is discarded along with the element it consumed. -/
def mergeStep {β ε υ : Type} (s : MState β ε υ) : Nat → MState β ε υ × List (MOut β ε υ)
  | 0 =>
    if s.outerDone = true then (s, [])
    else
      match s.outerRem with
      | [] => ({ s with outerDone := true }, [])
      | .ok (.plain b) :: rest => ({ s with outerRem := rest }, [.fromOuter (.ok b)])
      | .ok (.sub l) :: rest =>
        ({ s with
            outerRem := rest
            discovered := s.discovered ++ [l]
            inners := s.inners ++ [(s.discovered.length, l)] }, [])
      | .err e :: rest => ({ s with outerRem := rest }, [.fromOuter (.err e)])
      | .exception p t :: rest => ({ s with outerRem := rest }, [.fromOuter (.exception p t)])
  | id + 1 =>
    match assocFind id s.inners with
    | none => (s, [])
    | some rem =>
      let outerRem' := if s.outerDone = true then s.outerRem else s.outerRem.tail
      match rem with
      | [] => (⟨outerRem', s.outerDone, s.discovered, assocErase id s.inners⟩, [])
      | a :: arest =>
        (⟨outerRem', s.outerDone, s.discovered, bucketsSet id arest s.inners⟩,
          [.fromInner id a])

/-- Run of the merge loop under a schedule of race winners. -/
def mergeRun {β ε υ : Type} (s : MState β ε υ) :
    List Nat → List (MOut β ε υ) × MState β ε υ
  | [] => ([], s)
  | c :: cs =>
    let r := mergeStep s c
    let r2 := mergeRun r.1 cs
    (r.2 ++ r2.1, r2.2)

/-- Exit condition of the merge loop: the outer sequence is exhausted and no
inner stream is still open. -/
def mergeFinished {β ε υ : Type} (s : MState β ε υ) : Bool :=
  s.outerDone && s.inners.isEmpty

/-- Sub-stream with identifier `id` discovered in a merge state (the empty
stream when no such identifier was discovered). -/
def discoveredAt {β ε υ : Type} (s : MState β ε υ) (id : Nat) : List (Atom β ε υ) :=
  s.discovered.getD id []

/-!
Push-to-pull bridge (`fromPusher` in the stream base file).  Each stream pull
runs the inner `next` function: a buffered value is returned immediately, the
done flag ends the stream, and otherwise the pull suspends on the signal.
`push` appends to the queue (unless the stream is complete, in which case it
is logged and ignored) and fires the signal; `done` sets the flag and fires
the signal; a fired signal resumes the suspended pull, which re-checks the
queue and then the flag.  The retry counter of the source is unreachable
under the single-consumer contract, because every signal firing follows a
push or a done and the resumed pull then finds a queued value or the flag.
-/

/-- State of the pusher bridge: the buffered values, the done flag, whether a
pull is suspended on the signal, the atoms emitted so far on the stream, and
whether end-of-stream was emitted. -/
structure PusherState (α ε υ : Type) where
  queue : List (MaybeAtom α ε υ)
  doneFlag : Bool
  pending : Bool
  emitted : List (Atom α ε υ)
  ended : Bool
deriving DecidableEq, Repr

/-- Initial pusher state. -/
def pusherInit {α ε υ : Type} : PusherState α ε υ := ⟨[], false, false, [], false⟩

/-- Resumption of a suspended pull after the signal fires: the queue is
re-checked first, then the done flag; with neither, the pull keeps waiting on
a fresh signal. -/
def deliver {α ε υ : Type} (s : PusherState α ε υ) : PusherState α ε υ :=
  if s.pending = true then
    match s.queue with
    | v :: q => { s with queue := q, pending := false, emitted := s.emitted ++ [normalise v] }
    | [] =>
      if s.doneFlag = true then { s with pending := false, ended := true } else s
  else s

/-- Model of the returned `push` closure: after `done` the call is logged and
ignored; otherwise the value is queued and the signal fired. -/
def push {α ε υ : Type} (v : MaybeAtom α ε υ) (s : PusherState α ε υ) : PusherState α ε υ :=
  if s.doneFlag = true then s
  else deliver { s with queue := s.queue ++ [v] }

/-- Model of the returned `done` closure: the flag is set and the signal
fired. -/
def doneOp {α ε υ : Type} (s : PusherState α ε υ) : PusherState α ε υ :=
  deliver { s with doneFlag := true }

/-- Model of one pull on the bridge stream: a buffered value is emitted
immediately, an empty queue with the done flag ends the stream, and otherwise
the pull suspends.  A pull while the stream has ended or while another pull is
suspended does nothing (the engine contract forbids the latter). -/
def pull {α ε υ : Type} (s : PusherState α ε υ) : PusherState α ε υ :=
  if s.ended = true then s
  else if s.pending = true then s
  else
    match s.queue with
    | v :: q => { s with queue := q, emitted := s.emitted ++ [normalise v] }
    | [] =>
      if s.doneFlag = true then { s with ended := true }
      else { s with pending := true }

/-- External interaction with the bridge. -/
inductive POp (α ε υ : Type) where
  | push (v : MaybeAtom α ε υ)
  | done
  | pull
deriving DecidableEq, Repr

/-- Run of a sequence of bridge interactions. -/
def pusherRun {α ε υ : Type} (s : PusherState α ε υ) : List (POp α ε υ) → PusherState α ε υ
  | [] => s
  | .push v :: rest => pusherRun (push v s) rest
  | .done :: rest => pusherRun (doneOp s) rest
  | .pull :: rest => pusherRun (pull s) rest

/-- Values accepted by `push` along an interaction sequence, starting from
done flag `d`: pushes after `done` are rejected. -/
def acceptedGo {α ε υ : Type} (d : Bool) : List (POp α ε υ) → List (MaybeAtom α ε υ)
  | [] => []
  | .push v :: rest => if d then acceptedGo d rest else v :: acceptedGo d rest
  | .done :: rest => acceptedGo true rest
  | .pull :: rest => acceptedGo d rest

/-! Theorems. -/

/-- Behaviour of the take loop beyond `i` already-consumed atoms. -/
lemma takeGo_spec {α ε υ : Type} (n : Int) :
    ∀ (input : List (Atom α ε υ)) (i : Nat), (i : Int) < n →
      takeGo false n i input =
        ((input.take (n - i).toNat).filter fun a => a.isOk, min (n - i).toNat input.length) := by
  intro input
  induction input with
  | nil => intro i _; simp [takeGo]
  | cons a rest ih =>
    intro i hi
    by_cases h : ((i : Int) + 1) ≥ n
    · have hn : n = (i : Int) + 1 := by omega
      have h1 : (n - (i : Int)).toNat = 1 := by omega
      simp only [takeGo, if_pos h, h1]
      have hmin : min 1 (rest.length + 1) = 1 := by omega
      cases ha : a.isOk <;>
        simp [List.take_succ_cons, List.filter, ha, hmin]
    · have hi1 : ((i : Int) + 1) < n := by omega
      have hIH := ih (i + 1) (by push_cast; omega)
      have h1 : (n - (i : Int)).toNat = (n - ((i : Nat) + 1 : Nat)).toNat + 1 := by
        push_cast; omega
      simp only [takeGo, if_neg h, hIH, h1]
      cases ha : a.isOk <;>
        simp [List.take_succ_cons, List.filter, ha, Nat.succ_min_succ]

/-- C9: take(n) with the atoms option unset counts every upstream atom (Ok,
Err or Exception) toward the limit n but emits only the Ok atoms among the
first n, discarding Err and Exception atoms from the output, and for n ≤ 0 it
yields the empty sequence after zero pulls from upstream. -/
theorem take_counts_atoms_emits_ok {α ε υ : Type} (n : Int) (input : List (Atom α ε υ)) :
    take n false input =
      if n ≤ 0 then ([], 0)
      else ((input.take n.toNat).filter fun a => a.isOk, min n.toNat input.length) := by
  unfold take
  split
  · rfl
  · rename_i h
    have := takeGo_spec n input 0 (by omega)
    simpa using this

/-- C10: a rejected promise from the producer given to Stream.fromNext is
caught and emitted as an Exception atom whose payload is the rejected value
and whose trace is empty, it never propagates to the consumer, and the stream
continues to be pulled afterwards rather than ending. -/
theorem fromNext_rejection_continues {α ε υ : Type} (vs : List (MaybeAtom α ε υ)) (e : υ)
    (post : List (NextResult α ε υ)) :
    fromNext (vs.map NextResult.value ++ NextResult.thrown e :: post) =
      vs.map normalise ++ Atom.exception e [] :: fromNext post := by
  induction vs with
  | nil => simp [fromNext]
  | cons v vs ih => simp [fromNext, ih]

/-- The FIFO consumer of the buffer emits exactly the buffered entries, in
buffer order, whatever the completion times are. -/
lemma bufferedConsume_map_fst {γ : Type} (compl : Nat → Nat) :
    ∀ (xs : List γ) (i clock : Nat), (bufferedConsume compl i clock xs).map Prod.fst = xs := by
  intro xs
  induction xs with
  | nil => intro i clock; rfl
  | cons x xs ih => intro i clock; simp [bufferedConsume, ih]

/-- C6: bufferedMap emits results in the order their triggering items arrived
from upstream, for every assignment of completion times to the in-flight
operations (each slot is awaited by position, not by completion time), and
with the identity callback the output sequence equals the input sequence in
content and count. -/
theorem bufferedMap_preserves_order {α β ε υ : Type} (compl : Nat → Nat)
    (cb : α → Except υ (MaybeAtom β ε υ)) (trace : List String) (input : List (Atom α ε υ)) :
    ((bufferedMap compl cb trace input).map Prod.fst = input.map (bufferedEntry cb trace))
    ∧ ((bufferedMap compl (fun v => Except.ok (MaybeAtom.value v)) trace input).map Prod.fst
        = input) := by
  constructor
  · exact bufferedConsume_map_fst compl _ 0 0
  · have hid : ∀ a : Atom α ε υ,
        bufferedEntry (fun v => Except.ok (MaybeAtom.value v)) trace a = a := by
      intro a; cases a <;> rfl
    rw [bufferedMap, bufferedConsume_map_fst]
    exact List.map_congr_left (fun a _ => hid a) |>.trans (List.map_id input)

/-- Counterexample to C3: the claim requires every combinator to route its
user callback through the guarded helper so that a thrown value becomes an
Exception atom in the position of the failing item, but `tap` catches the throw
itself, logs it, and re-emits the original value as an Ok atom. -/
theorem guarded_helper_counterexample :
    tap (fun _ => (Except.error "boom" : Except String Unit)) []
        [(Atom.ok 1 : Atom Nat String String)] = [Atom.ok 1]
    ∧ ([(Atom.ok 1 : Atom Nat String String)] ≠ [Atom.exception "boom" []]) := by
  exact ⟨rfl, by decide⟩

/-- C3 as amended: the guarded helper awaits the callback, normalises a plain
value to Ok, passes a tagged atom through unchanged and converts a throw into
an Exception atom with the current trace; the map and flatMap families invoke
their callbacks only through it, emitting the guarded result exactly in the
position of the triggering item — but `tap` wraps its callback in a try/catch of
its own, so a throw there is swallowed and the value re-emitted as Ok. -/
theorem guarded_helper_coverage {α β ε υ : Type} :
    (∀ (v : α) (tr : List String),
        handler (Except.ok (MaybeAtom.value v)) tr = (Atom.ok v : Atom α ε υ))
    ∧ (∀ (a : Atom α ε υ) (tr : List String), handler (Except.ok (MaybeAtom.atom a)) tr = a)
    ∧ (∀ (e : υ) (tr : List String),
        handler (Except.error e : Except υ (MaybeAtom α ε υ)) tr = Atom.exception e tr)
    ∧ (∀ (cb : α → Except υ (MaybeAtom β ε υ)) (tr : List String) (vs : List α),
        map cb tr (vs.map Atom.ok) = vs.map fun v => handler (cb v) tr)
    ∧ (∀ (cb : α → Except υ (List (Atom β ε υ))) (tr : List String) (vs : List α),
        flatMap cb tr (vs.map Atom.ok) =
          (vs.map fun v =>
            match cb v with
            | .error e => [Atom.exception e tr]
            | .ok sub => sub).flatten)
    ∧ (∀ (cb : α → Except υ Unit) (tr : List String) (input : List (Atom α ε υ)),
        tap cb tr input = input) := by
  refine ⟨fun v tr => rfl, fun a tr => rfl, fun e tr => rfl, ?_, ?_, ?_⟩
  · intro cb tr vs
    induction vs with
    | nil => rfl
    | cons v vs ih => simp [map, ih]
  · intro cb tr vs
    induction vs with
    | nil => rfl
    | cons v vs ih => simp [flatMap, ih]
  · intro cb tr input
    induction input with
    | nil => rfl
    | cons a rest ih =>
      cases a with
      | ok v =>
        have : handler (tapWrap cb v) tr = (Atom.ok v : Atom α ε υ) := by
          unfold tapWrap; cases cb v <;> rfl
        simp [tap, map, ih, this]
        exact ih
      | err e => simpa [tap, map] using ih
      | exception p t => simpa [tap, map] using ih

/-- Counterexample to C2: take with the atoms option unset silently discards
an Err atom that arrives among the first n upstream atoms, instead of
emitting it downstream exactly once. -/
theorem error_propagation_counterexample :
    (take 2 false [(Atom.err "e" : Atom Nat String String), Atom.ok 1]).1 = [Atom.ok 1]
    ∧ (Atom.err "e" : Atom Nat String String) ∉
        (take 2 false [(Atom.err "e" : Atom Nat String String), Atom.ok 1]).1 := by
  decide

/-- Every atom the take loop emits with the atoms option unset is Ok. -/
lemma takeGo_all_ok {α ε υ : Type} (n : Int) :
    ∀ (input : List (Atom α ε υ)) (i : Nat), ∀ b ∈ (takeGo false n i input).1, b.isOk = true := by
  intro input
  induction input with
  | nil => intro i b hb; simp [takeGo] at hb
  | cons a rest ih =>
    intro i b hb
    simp only [takeGo] at hb
    split at hb
    · cases ha : a.isOk <;> simp [ha] at hb
      exact hb ▸ ha
    · simp only [List.mem_append] at hb
      rcases hb with hb | hb
      · cases ha : a.isOk <;> simp [ha] at hb
        exact hb ▸ ha
      · exact ih (i + 1) b hb

/-- Every atom drop emits with the atoms option unset is Ok. -/
lemma drop_all_ok {α ε υ : Type} (n : Int) :
    ∀ (input : List (Atom α ε υ)) (i : Nat), ∀ b ∈ drop false n i input, b.isOk = true := by
  intro input
  induction input with
  | nil => intro i b hb; simp [drop] at hb
  | cons a rest ih =>
    intro i b hb
    by_cases ha : a.isOk
    · simp only [drop, ha, Bool.not_true, Bool.and_false] at hb
      simp only [Bool.false_eq_true, if_false, List.mem_append] at hb
      rcases hb with hb | hb
      · split at hb
        · simp at hb; exact hb ▸ ha
        · simp at hb
      · exact ih (i + 1) b hb
    · simp only [Bool.not_eq_true] at ha
      simp only [drop, ha, Bool.not_false, Bool.and_true, Bool.not_true] at hb
      exact ih i b hb

/-- C2 as amended: a non-Ok atom passes through flatMap exactly once,
unchanged and in its original relative position, without touching the
callback, and batch yields it immediately without buffering; but take and
drop with the atoms option unset discard non-Ok atoms entirely, and filter
re-emits a non-Ok atom once and then still runs its condition on the payload
of the atom, emitting the atom a second time whenever the condition is truthy. -/
theorem error_propagation_per_stage {γ : Type} (a : Atom γ γ γ) (h : a.isOk = false) :
    (∀ (cond : γ → Bool) (rest : List (Atom γ γ γ)),
        filter cond (a :: rest) =
          a :: ((if cond (payload a) then [a] else []) ++ filter cond rest))
    ∧ (∀ (n : Int) (input : List (Atom γ γ γ)), ∀ b ∈ (take n false input).1, b.isOk = true)
    ∧ (∀ (n : Int) (i : Nat) (input : List (Atom γ γ γ)),
        ∀ b ∈ drop false n i input, b.isOk = true)
    ∧ (∀ (cb : γ → Except γ (List (Atom γ γ γ))) (tr : List String) (xs ys : List (Atom γ γ γ)),
        flatMap cb tr (xs ++ a :: ys) = flatMap cb tr xs ++ a :: flatMap cb tr ys)
    ∧ (∀ (o : BatchOptions) (bf : γ → String) (st : BState γ String) (e : γ),
        batchStep (ε := γ) (υ := γ) o bf st (BEvent.atom (Atom.err e)) = (st, [Atom.err e]))
    ∧ (∀ (o : BatchOptions) (bf : γ → String) (st : BState γ String) (p : γ) (t : List String),
        batchStep (ε := γ) (υ := γ) o bf st (BEvent.atom (Atom.exception p t)) =
          (st, [Atom.exception p t])) := by
  refine ⟨?_, ?_, ?_, ?_, ?_, ?_⟩
  · intro cond rest
    simp only [filter, h]
    simp
  · intro n input b hb
    unfold take at hb
    split at hb
    · simp at hb
    · exact takeGo_all_ok n input 0 b hb
  · intro n i input b hb
    exact drop_all_ok n input i b hb
  · intro cb tr xs ys
    induction xs with
    | nil =>
      cases a with
      | ok v => simp [Atom.isOk] at h
      | err e => simp [flatMap]
      | exception p t => simp [flatMap]
    | cons x xs ih =>
      cases x with
      | ok v => simp [flatMap, ih]
      | err e => simp [flatMap, ih]
      | exception p t => simp [flatMap, ih]
  · intro o bf st e
    rfl
  · intro o bf st p t
    rfl

/-- Concrete instance of the amended C2 behaviour: a truthy filter condition
duplicates an Err atom. -/
theorem error_propagation_per_stage_witness :
    (Atom.err (0 : Nat) : Atom Nat Nat Nat).isOk = false
    ∧ filter (fun _ => true) [(Atom.err 0 : Atom Nat Nat Nat)] = [Atom.err 0, Atom.err 0] := by
  refine ⟨by decide, ?_⟩
  have h := (error_propagation_per_stage (Atom.err (0 : Nat)) (by decide)).1 (fun _ => true) []
  simpa [filter, payload] using h

/-- Counterexample to C1: the claim quantifies over every side-effect-free
callback and key function, but with a non-injective key function the cached
replay diverges from uncached flatMap, and with a throwing callback (which
caches nothing) the callback runs once per occurrence of a repeated key, not
once per distinct key. -/
theorem cachedFlatMap_counterexample :
    ((cachedFlatMap (fun n => Except.ok [Atom.ok n]) (fun _ => (0 : Nat)) []
        ([1, 2].map Atom.ok)).1 ≠
      flatMap (fun n => (Except.ok [Atom.ok n] : Except String (List (Atom Nat String String))))
        [] ([1, 2].map Atom.ok))
    ∧ ((cachedFlatMap
          (fun _ => (Except.error "boom" : Except String (List (Atom Nat String String))))
          (fun v => v) [] ([0, 0].map Atom.ok)).2.length = 2) := by
  decide

/-- An association-list hit names an entry of the list. -/
lemma assocFind_mem {κ ρ : Type} [DecidableEq κ] {k : κ} {r : ρ} :
    ∀ {l : List (κ × ρ)}, assocFind k l = some r → (k, r) ∈ l := by
  intro l
  induction l with
  | nil => intro h; simp [assocFind] at h
  | cons p rest ih =>
    intro h
    by_cases hp : p.1 = k
    · simp only [assocFind, if_pos hp, Option.some.injEq] at h
      have hpk : p = (k, r) := Prod.ext hp h
      rw [← hpk]
      exact List.mem_cons_self _ _
    · simp only [assocFind, if_neg hp] at h
      exact List.mem_cons_of_mem _ (ih h)

/-- Lookup distributes over append: the left list is consulted first. -/
lemma assocFind_append {κ ρ : Type} [DecidableEq κ] (k : κ) :
    ∀ (l₁ l₂ : List (κ × ρ)),
      assocFind k (l₁ ++ l₂) =
        match assocFind k l₁ with
        | some r => some r
        | none => assocFind k l₂ := by
  intro l₁ l₂
  induction l₁ with
  | nil => simp [assocFind]
  | cons p rest ih =>
    by_cases hp : p.1 = k
    · simp [assocFind, hp]
    · simp only [List.cons_append, assocFind, if_neg hp]
      exact ih

/-- Cache behaviour of the cachedFlatMap loop: with a key-consistent,
non-throwing callback the emitted atoms coincide with uncached flatMap, the
invoked keys are pairwise distinct and absent from the starting cache, and
the key of every Ok value is either invoked or already cached. -/
lemma cachedGo_spec {α β ε υ κ : Type} [DecidableEq κ]
    (cb : α → Except υ (List (Atom β ε υ))) (keyFn : α → κ) (tr : List String) :
    ∀ (input : List (Atom α ε υ)) (cache : List (κ × List (Atom β ε υ))),
      (∀ v ∈ okValues input, ∀ w ∈ okValues input, keyFn v = keyFn w → cb v = cb w) →
      (∀ v ∈ okValues input, ∃ sub, cb v = Except.ok sub) →
      (∀ p ∈ cache, ∀ v ∈ okValues input, keyFn v = p.1 → cb v = Except.ok p.2) →
      (cachedGo cb keyFn tr input cache).1 = flatMap cb tr input
      ∧ ((cachedGo cb keyFn tr input cache).2.map keyFn).Nodup
      ∧ (∀ k ∈ (cachedGo cb keyFn tr input cache).2.map keyFn, assocFind k cache = none)
      ∧ (∀ v ∈ okValues input,
          keyFn v ∈ (cachedGo cb keyFn tr input cache).2.map keyFn
          ∨ assocFind (keyFn v) cache ≠ none) := by
  intro input
  induction input with
  | nil =>
    intro cache _ _ _
    refine ⟨rfl, List.nodup_nil, ?_, ?_⟩ <;> simp [cachedGo, okValues]
  | cons a rest ih =>
    intro cache hkey hok hcache
    cases a with
    | err e =>
      have hrest := ih cache (by simpa [okValues] using hkey) (by simpa [okValues] using hok)
        (fun p hp => by
          have := hcache p hp
          simpa [okValues] using this)
      refine ⟨?_, hrest.2.1, hrest.2.2.1, ?_⟩
      · simp only [cachedGo, flatMap, hrest.1]
      · intro v hv
        exact hrest.2.2.2 v (by simpa [okValues] using hv)
    | exception p t =>
      have hrest := ih cache (by simpa [okValues] using hkey) (by simpa [okValues] using hok)
        (fun q hq => by
          have := hcache q hq
          simpa [okValues] using this)
      refine ⟨?_, hrest.2.1, hrest.2.2.1, ?_⟩
      · simp only [cachedGo, flatMap, hrest.1]
      · intro v hv
        exact hrest.2.2.2 v (by simpa [okValues] using hv)
    | ok v =>
      have hvmem : v ∈ okValues (Atom.ok v :: rest) := by simp [okValues]
      have hkey' : ∀ w ∈ okValues rest, ∀ u ∈ okValues rest, keyFn w = keyFn u → cb w = cb u :=
        fun w hw u hu =>
          hkey w (by simp [okValues, hw]) u (by simp [okValues, hu])
      have hok' : ∀ w ∈ okValues rest, ∃ sub, cb w = Except.ok sub :=
        fun w hw => hok w (by simp [okValues, hw])
      cases hfind : assocFind (keyFn v) cache with
      | some sub =>
        have hmem := assocFind_mem hfind
        have hcbv : cb v = Except.ok sub := hcache _ hmem v hvmem rfl
        have hrest := ih cache hkey' hok'
          (fun p hp w hw => hcache p hp w (by simp [okValues, hw]))
        refine ⟨?_, ?_, ?_, ?_⟩
        · simp only [cachedGo, hfind, flatMap, hrest.1, hcbv]
        · simpa [cachedGo, hfind] using hrest.2.1
        · intro k hk
          exact hrest.2.2.1 k (by simpa [cachedGo, hfind] using hk)
        · intro w hw
          rcases (by simpa [okValues] using hw : w = v ∨ w ∈ okValues rest) with hw | hw

          · right
            rw [hw, hfind]
            simp
          · rcases hrest.2.2.2 w hw with h | h
            · left; simpa [cachedGo, hfind] using h
            · right; exact h
      | none =>
        obtain ⟨sub, hcbv⟩ := hok v hvmem
        have hfind' : assocFind (keyFn v) (cache ++ [(keyFn v, sub)]) = some sub := by
          rw [assocFind_append, hfind]
          simp [assocFind]
        have hcache' : ∀ p ∈ cache ++ [(keyFn v, sub)], ∀ w ∈ okValues rest,
            keyFn w = p.1 → cb w = Except.ok p.2 := by
          intro p hp w hw hkw
          rcases List.mem_append.mp hp with hp | hp
          · exact hcache p hp w (by simp [okValues, hw]) hkw
          · have hpv : p = (keyFn v, sub) := by simpa using hp
            subst hpv
            have : cb w = cb v :=
              hkey w (by simp [okValues, hw]) v hvmem (by simpa using hkw)
            rw [this, hcbv]
        have hrest := ih (cache ++ [(keyFn v, sub)]) hkey' hok' hcache'
        have hgo : cachedGo cb keyFn tr (Atom.ok v :: rest) cache =
            (sub ++ (cachedGo cb keyFn tr rest (cache ++ [(keyFn v, sub)])).1,
              v :: (cachedGo cb keyFn tr rest (cache ++ [(keyFn v, sub)])).2) := by
          simp only [cachedGo, hfind, hcbv]
        refine ⟨?_, ?_, ?_, ?_⟩
        · rw [hgo]
          simp only [flatMap, hrest.1, hcbv]
        · rw [hgo]
          simp only [List.map_cons, List.nodup_cons]
          refine ⟨?_, hrest.2.1⟩
          intro hin
          have := hrest.2.2.1 _ hin
          rw [hfind'] at this
          exact Option.some_ne_none _ this
        · intro k hk
          rw [hgo] at hk
          simp only [List.map_cons, List.mem_cons] at hk
          rcases hk with hk | hk
          · rw [hk]; exact hfind
          · have := hrest.2.2.1 k hk
            rw [assocFind_append] at this
            revert this
            cases assocFind k cache <;> simp
        · intro w hw
          rcases (by simpa [okValues] using hw : w = v ∨ w ∈ okValues rest) with hw | hw
          · left
            rw [hgo, hw]
            simp
          · rcases hrest.2.2.2 w hw with h | h
            · left
              rw [hgo]
              simp only [List.map_cons, List.mem_cons]
              right; exact h
            · cases hfc : assocFind (keyFn w) cache with
              | some r =>
                right
                simp
              | none =>
                left
                rw [assocFind_append, hfc] at h
                simp only [assocFind] at h
                by_cases hkk : keyFn v = keyFn w
                · rw [hgo]
                  simp only [List.map_cons, List.mem_cons]
                  left
                  exact hkk.symm
                · rw [if_neg hkk] at h
                  exact absurd rfl h

/-- C1 as amended: for a callback that never throws and a key function under
which equal keys imply equal callback results, cachedFlatMap produces an atom
sequence identical to uncached flatMap, and its callback is invoked exactly
once per distinct key of the Ok values: the invoked keys are pairwise
distinct and cover the key of every Ok value.  (A throwing callback caches
nothing and reruns on a repeated key; a key function that conflates values
with different callback results makes the replayed output diverge.) -/
theorem cachedFlatMap_once_per_key {α β ε υ κ : Type} [DecidableEq κ]
    (cb : α → Except υ (List (Atom β ε υ))) (keyFn : α → κ) (tr : List String)
    (input : List (Atom α ε υ))
    (hkey : ∀ v ∈ okValues input, ∀ w ∈ okValues input, keyFn v = keyFn w → cb v = cb w)
    (hok : ∀ v ∈ okValues input, ∃ sub, cb v = Except.ok sub) :
    (cachedFlatMap cb keyFn tr input).1 = flatMap cb tr input
    ∧ ((cachedFlatMap cb keyFn tr input).2.map keyFn).Nodup
    ∧ (∀ v ∈ okValues input, keyFn v ∈ (cachedFlatMap cb keyFn tr input).2.map keyFn) := by
  have h := cachedGo_spec cb keyFn tr input [] hkey hok (by simp)
  refine ⟨h.1, h.2.1, ?_⟩
  intro v hv
  rcases h.2.2.2 v hv with h' | h'
  · exact h'
  · simp [assocFind] at h'

/-- Concrete instance of the amended C1: three Ok values over two distinct
keys invoke the callback on exactly the two first occurrences and reproduce
the flatMap output. -/
theorem cachedFlatMap_once_per_key_witness :
    ((cachedFlatMap (fun b => Except.ok [Atom.ok b]) (fun b => b) []
        ([true, false, true].map Atom.ok)).1 =
      flatMap (fun b => (Except.ok [Atom.ok b] : Except String (List (Atom Bool String String))))
        [] ([true, false, true].map Atom.ok))
    ∧ ((cachedFlatMap (fun b => (Except.ok [Atom.ok b] :
          Except String (List (Atom Bool String String)))) (fun b => b) []
        ([true, false, true].map Atom.ok)).2.map (fun b => b)).Nodup := by
  have h := cachedFlatMap_once_per_key
    (fun b => (Except.ok [Atom.ok b] : Except String (List (Atom Bool String String))))
    (fun b => b) [] ([true, false, true].map Atom.ok)
    (fun v _ w _ hvw =>
      congrArg (fun b => (Except.ok [Atom.ok b] : Except String (List (Atom Bool String String))))
        hvw)
    (fun v _ => ⟨[Atom.ok v], rfl⟩)
  exact ⟨h.1, h.2.1⟩

/-- Every full chunk produced by the splitter has length exactly `n`. -/
lemma splitGo_chunk_len {α : Type} (n : Nat) (hn : 1 ≤ n) :
    ∀ (input acc : List α), acc.length < n → ∀ c ∈ (splitGo n acc input).1, c.length = n := by
  intro input
  induction input with
  | nil => intro acc _ c hc; simp [splitGo] at hc
  | cons v vs ih =>
    intro acc hacc c hc
    by_cases h : n ≤ (acc ++ [v]).length
    · simp only [splitGo, if_pos h] at hc
      rcases List.mem_cons.mp hc with hc | hc
      · subst hc
        simp only [List.length_append, List.length_singleton]
        simp only [List.length_append, List.length_singleton] at h
        omega
      · exact ih [] (by simp only [List.length_nil]; omega) c hc
    · simp only [splitGo, if_neg h] at hc
      refine ih (acc ++ [v]) ?_ c hc
      simp only [List.length_append, List.length_singleton] at h ⊢
      omega

/-- The chunks and remainder of the splitter reassemble the input. -/
lemma splitGo_flatten {α : Type} (n : Nat) :
    ∀ (input acc : List α),
      (splitGo n acc input).1.flatten ++ (splitGo n acc input).2 = acc ++ input := by
  intro input
  induction input with
  | nil => intro acc; simp [splitGo]
  | cons v vs ih =>
    intro acc
    by_cases h : n ≤ (acc ++ [v]).length
    · simp only [splitGo, if_pos h, List.flatten_cons, List.append_assoc]
      rw [ih []]
      simp
    · simp only [splitGo, if_neg h]
      rw [ih (acc ++ [v])]
      simp

/-- The remainder of the splitter is shorter than the chunk size. -/
lemma splitGo_rest_lt {α : Type} (n : Nat) (hn : 1 ≤ n) :
    ∀ (input acc : List α), acc.length < n → (splitGo n acc input).2.length < n := by
  intro input
  induction input with
  | nil => intro acc hacc; simpa [splitGo] using hacc
  | cons v vs ih =>
    intro acc hacc
    by_cases h : n ≤ (acc ++ [v]).length
    · simp only [splitGo, if_pos h]
      exact ih [] (by simp only [List.length_nil]; omega)
    · simp only [splitGo, if_neg h]
      refine ih (acc ++ [v]) ?_
      simp only [List.length_append, List.length_singleton] at h ⊢
      omega

/-- With fewer than `n` items overall, the splitter flushes nothing. -/
lemma splitGo_small {α : Type} (n : Nat) :
    ∀ (input acc : List α), (acc ++ input).length < n → splitGo n acc input = ([], acc ++ input) := by
  intro input
  induction input with
  | nil => intro acc _; simp [splitGo]
  | cons v vs ih =>
    intro acc hlt
    have h : ¬ n ≤ (acc ++ [v]).length := by
      simp only [List.length_append, List.length_cons, List.length_singleton,
        List.length_nil] at hlt ⊢
      omega
    simp only [splitGo, if_neg h]
    rw [ih (acc ++ [v]) (by
      simp only [List.length_append, List.length_singleton, List.length_cons,
        List.length_nil] at hlt ⊢
      omega)]
    simp

/-- With exactly `n` items overall, the splitter emits one full chunk. -/
lemma splitGo_exact {α : Type} (n : Nat) :
    ∀ (input acc : List α), acc.length < n → (acc ++ input).length = n →
      splitGo n acc input = ([acc ++ input], []) := by
  intro input
  induction input with
  | nil =>
    intro acc hacc hlen
    simp only [List.append_nil] at hlen
    omega
  | cons v vs ih =>
    intro acc hacc hlen
    simp only [List.length_append, List.length_cons] at hlen
    by_cases h : n ≤ (acc ++ [v]).length
    · have hvs : vs = [] := by
        simp only [List.length_append, List.length_singleton] at h
        have : vs.length = 0 := by omega
        exact List.eq_nil_of_length_eq_zero this
      subst hvs
      have h' : n ≤ acc.length + 1 := by simpa using h
      simp [splitGo, h']
    · simp only [splitGo, if_neg h]
      have h' : (acc ++ [v]).length < n := by
        simp only [List.length_append, List.length_singleton] at h ⊢
        omega
      rw [ih (acc ++ [v]) h' (by
        simp only [List.length_append, List.length_singleton] at hlen ⊢
        omega)]
      simp

/-- Flattening chunks of uniform length `n` multiplies the count by `n`. -/
lemma flatten_length_uniform {α : Type} (n : Nat) :
    ∀ (l : List (List α)), (∀ c ∈ l, c.length = n) → l.flatten.length = n * l.length := by
  intro l
  induction l with
  | nil => intro _; simp
  | cons c cs ih =>
    intro h
    simp only [List.flatten_cons, List.length_append, List.length_cons,
      ih fun d hd => h d (List.mem_cons_of_mem _ hd), h c (List.mem_cons_self _ _)]
    ring

/-- A bucket map all of whose buckets are empty has ready sum zero. -/
lemma readySum_zero {α κ : Type} (o : BatchOptions) :
    ∀ l : List (κ × List α), (∀ p ∈ l, p.2 = []) → readySum o l = 0 := by
  intro l
  induction l with
  | nil => intro _; simp [readySum]
  | cons p rest ih =>
    intro h
    have hp : p.2 = [] := h p (List.mem_cons_self _ _)
    have hr := ih fun q hq => h q (List.mem_cons_of_mem _ hq)
    simp only [readySum, List.filter] at hr ⊢
    cases hcond : (decide (o.n.getD 1 ≤ p.2.length) || o.yieldRemaining) <;>
      simp [hcond, hp, hr]

/-- From the fresh state and from the state holding one empty default bucket,
the batch generator behaves identically: the first Ok arrival creates the
bucket in one case and appends to the empty bucket in the other, and every
other event treats the two states alike. -/
lemma batchRun_empty_bucket {α ε υ : Type} (o : BatchOptions) :
    ∀ (evs : List (BEvent α ε υ)),
      batchRun o (fun _ => defaultKey) batchInit evs =
        batchRun o (fun _ => defaultKey) ⟨[(defaultKey, [])], 0⟩ evs := by
  intro evs
  induction evs with
  | nil => rfl
  | cons e rest ih =>
    cases e with
    | endOfStream =>
      show batchFinish o batchInit = batchFinish o ⟨[(defaultKey, [])], 0⟩
      rcases o with ⟨n, t, yr, ye⟩
      cases t <;> cases ye <;> rcases n with _ | m <;>
        simp [batchFinish, batchInit]
    | tick =>
      have hsum : readySum o [(defaultKey, ([] : List α))] = 0 :=
        readySum_zero o _ (by simp)
      have hsum0 : readySum o ([] : List (String × List α)) = 0 := by
        simp [readySum]
      by_cases ht : o.timeout = true
      · simp only [batchRun, batchStep, ht, if_pos rfl, hsum, hsum0, batchInit]
        simpa using ih
      · have ht' : o.timeout = false := by
          cases h : o.timeout
          · rfl
          · exact absurd h ht
        simp only [batchRun, batchStep, ht']
        simpa [batchInit] using ih
    | atom a =>
      cases a with
      | ok v =>
        have hstep :
            batchStep (ε := ε) (υ := υ) o (fun _ => defaultKey) batchInit
              (BEvent.atom (Atom.ok v)) =
            batchStep (ε := ε) (υ := υ) o (fun _ => defaultKey) ⟨[(defaultKey, [])], 0⟩
              (BEvent.atom (Atom.ok v)) := by
          simp [batchStep, batchInit, assocFind, bucketsSet]
        simp only [batchRun, hstep]
      | err e => simp only [batchRun, batchStep]; rw [ih]
      | exception p t => simp only [batchRun, batchStep]; rw [ih]

/-- Unfolding of the batch run on an atom event. -/
lemma batchRun_cons_atom {α ε υ κ : Type} [DecidableEq κ] (o : BatchOptions) (bf : α → κ)
    (st : BState α κ) (a : Atom α ε υ) (rest : List (BEvent α ε υ)) :
    batchRun o bf st (BEvent.atom a :: rest) =
      (batchStep o bf st (BEvent.atom a)).2 ++
        batchRun o bf (batchStep o bf st (BEvent.atom a)).1 rest := rfl

/-- Unfolding of the batch run on a tick event. -/
lemma batchRun_cons_tick {α ε υ κ : Type} [DecidableEq κ] (o : BatchOptions) (bf : α → κ)
    (st : BState α κ) (rest : List (BEvent α ε υ)) :
    batchRun o bf st (BEvent.tick :: rest) =
      (batchStep (ε := ε) (υ := υ) o bf st BEvent.tick).2 ++
        batchRun o bf (batchStep (ε := ε) (υ := υ) o bf st BEvent.tick).1 rest := rfl

/-- Arrivals of Ok values with a count option: the bucket fills one value at a
time and is flushed as a chunk the instant it reaches `n`, leaving the
remainder buffered for later events. -/
lemma batch_arrivals {α ε υ : Type} (o : BatchOptions) (nn : Nat) (hn : o.n = some nn)
    (h1 : 1 ≤ nn) :
    ∀ (vs b : List α) (evs : List (BEvent α ε υ)), b.length < nn →
      batchRun o (fun _ => defaultKey) ⟨[(defaultKey, b)], (b.length : Int)⟩
          ((vs.map fun v => BEvent.atom (Atom.ok v)) ++ evs)
        = (splitGo nn b vs).1.map Atom.ok ++
          batchRun o (fun _ => defaultKey)
            ⟨[(defaultKey, (splitGo nn b vs).2)], (((splitGo nn b vs).2.length : Nat) : Int)⟩
            evs := by
  intro vs
  induction vs with
  | nil => intro b evs _; simp [splitGo]
  | cons v vs ih =>
    intro b evs hb
    by_cases hc : nn ≤ (b ++ [v]).length
    · have hlen : (b ++ [v]).length = nn := by
        simp only [List.length_append, List.length_singleton] at hc ⊢
        omega
      have htake : (b ++ [v]).take nn = b ++ [v] := by
        rw [← hlen]; exact List.take_length _
      have hdrop : (b ++ [v]).drop nn = [] := by
        rw [← hlen]; exact List.drop_length _
      have hnz : nn ≠ 0 := by omega
      have htot : (b.length : Int) + 1 - (nn : Int) = ((0 : Nat) : Int) := by
        simp only [List.length_append, List.length_singleton] at hlen
        simp only [Nat.cast_zero]
        omega
      have hc2 : nn ≤ b.length + 1 := by simpa using hc
      have hstep : batchStep (ε := ε) (υ := υ) o (fun _ => defaultKey)
          ⟨[(defaultKey, b)], (b.length : Int)⟩ (BEvent.atom (Atom.ok v))
          = (⟨[(defaultKey, [])], ((0 : Nat) : Int)⟩, [Atom.ok (b ++ [v])]) := by
        simp [batchStep, hn, assocFind, bucketsSet, hnz, hc, hc2, htake, hdrop, htot]
      rw [List.map_cons, List.cons_append, batchRun_cons_atom, hstep]
      dsimp only
      have hIH := ih [] evs (by simp only [List.length_nil]; omega)
      simp only [List.length_nil] at hIH
      rw [hIH]
      rw [show splitGo nn b (v :: vs) =
          ((b ++ [v]) :: (splitGo nn [] vs).1, (splitGo nn [] vs).2) from by
        simp only [splitGo, if_pos hc]]
      rw [List.map_cons]
      simp only [List.cons_append, List.singleton_append, List.nil_append]
    · have hb' : (b ++ [v]).length < nn := by
        simp only [List.length_append, List.length_singleton] at hc ⊢
        omega
      have hc2 : ¬ nn ≤ b.length + 1 := by simpa using hc
      have hcast : (b.length : Int) + 1 = (((b ++ [v]).length : Nat) : Int) := by
        simp
      have hstep : batchStep (ε := ε) (υ := υ) o (fun _ => defaultKey)
          ⟨[(defaultKey, b)], (b.length : Int)⟩ (BEvent.atom (Atom.ok v))
          = (⟨[(defaultKey, b ++ [v])], (b.length : Int) + 1⟩, []) := by
        simp [batchStep, hn, assocFind, bucketsSet, hc, hc2]
      rw [List.map_cons, List.cons_append, batchRun_cons_atom, hstep]
      dsimp only
      rw [hcast, ih (b ++ [v]) evs hb']
      rw [show splitGo nn b (v :: vs) = splitGo nn (b ++ [v]) vs from by
        simp only [splitGo, if_neg hc]]
      simp only [List.nil_append]

/-- C5: batch with a count n over k*n Ok values yields exactly the k arrays
of n consecutive values, in order; a short trailing remainder is yielded as
one final array exactly when yieldRemaining is set, so in particular an n
exceeding the total number of items with yieldRemaining unset yields nothing
at all. -/
theorem batch_count_chunks {α ε υ : Type} (nn : Nat) (h1 : 1 ≤ nn) (yr : Bool) (vs : List α) :
    (batchRun (ε := ε) (υ := υ) ⟨some nn, false, yr, false⟩ (fun _ => defaultKey) batchInit
        ((vs.map fun v => BEvent.atom (Atom.ok v)) ++ [BEvent.endOfStream])
      = (fullChunks nn vs).map Atom.ok ++
          (if (chunkRest nn vs).isEmpty = false ∧ yr = true then [Atom.ok (chunkRest nn vs)]
            else []))
    ∧ (∀ c ∈ fullChunks nn vs, c.length = nn)
    ∧ ((fullChunks nn vs).flatten ++ chunkRest nn vs = vs)
    ∧ ((chunkRest nn vs).length < nn)
    ∧ ((fullChunks nn vs).length = vs.length / nn) := by
  have hchunk : ∀ c ∈ fullChunks nn vs, c.length = nn :=
    splitGo_chunk_len nn h1 vs [] (by simp only [List.length_nil]; omega)
  have hflat : (fullChunks nn vs).flatten ++ chunkRest nn vs = vs := by
    simpa using splitGo_flatten nn vs []
  have hrest : (chunkRest nn vs).length < nn :=
    splitGo_rest_lt nn h1 vs [] (by simp only [List.length_nil]; omega)
  refine ⟨?_, hchunk, hflat, hrest, ?_⟩
  · rw [batchRun_empty_bucket]
    have h := batch_arrivals (ε := ε) (υ := υ) ⟨some nn, false, yr, false⟩ nn rfl h1 vs []
      [BEvent.endOfStream] (by simp only [List.length_nil]; omega)
    simp only [List.length_nil, Nat.cast_zero] at h
    rw [h]
    congr 1
    show batchFinish _ _ = _
    by_cases hL : (splitGo nn [] vs).2.isEmpty = true
    · have hnil : (splitGo nn [] vs).2 = [] := by
        cases hSG : (splitGo nn [] vs).2
        · rfl
        · rw [hSG] at hL; simp at hL
      simp [batchFinish, hnil, chunkRest]
    · have hne : (splitGo nn [] vs).2 ≠ [] := by
        intro hcon
        rw [hcon] at hL
        simp at hL
      have hpos : (0 : Int) < (((splitGo nn [] vs).2.length : Nat) : Int) := by
        have : 0 < (splitGo nn [] vs).2.length := List.length_pos.mpr hne
        exact_mod_cast this
      have hsplit : splitGo nn [] (splitGo nn [] vs).2 = ([], (splitGo nn [] vs).2) :=
        splitGo_small nn _ [] (by simpa using splitGo_rest_lt nn h1 vs [] (by simp only [List.length_nil]; omega))
      simp only [batchFinish, Bool.false_eq_true, if_false, chunkRest]
      rw [if_pos ⟨by omega, hpos⟩]
      simp only [List.flatMap_cons, List.flatMap_nil, hsplit, List.map_nil, List.nil_append,
        List.append_nil]
      by_cases hyr : yr = true
      · rw [if_pos ⟨by simpa using hne, hyr⟩, if_pos ⟨by simpa using hL, hyr⟩]
      · have hyr' : yr = false := by
          cases yr
          · rfl
          · exact absurd rfl hyr
        simp [hyr']
  · have hflatlen : (fullChunks nn vs).flatten.length = nn * (fullChunks nn vs).length :=
      flatten_length_uniform nn _ hchunk
    have hlen : vs.length = nn * (fullChunks nn vs).length + (chunkRest nn vs).length := by
      conv_lhs => rw [← hflat]
      rw [List.length_append, hflatlen]
    rw [hlen, Nat.mul_add_div (by omega), Nat.div_eq_of_lt hrest]
    omega

/-- Concrete instance of C5: n = 2 over five items with yieldRemaining. -/
theorem batch_count_chunks_witness :
    batchRun (ε := String) (υ := String) ⟨some 2, false, true, false⟩ (fun _ => defaultKey)
        batchInit (([1, 2, 3].map fun v => BEvent.atom (Atom.ok v)) ++ [BEvent.endOfStream])
      = [Atom.ok [1, 2], Atom.ok [3]] := by
  have h := (batch_count_chunks (α := Nat) (ε := String) (υ := String) 2 (by norm_num) true
    [1, 2, 3]).1
  rw [h]
  rfl

/-- Counterexample to C4: with n = 3 and a timeout, a heartbeat tick while
two items are pending flushes nothing — the readiness filter requires a
bucket to hold at least n items (or yieldRemaining) — and with yieldEmpty set
it even emits an empty array despite items being pending, where the claim
requires the tick to flush every nonempty bucket and to emit an empty array
only when nothing at all is pending. -/
theorem batch_timeout_counterexample :
    batchRun (ε := String) (υ := String) ⟨some 3, true, false, true⟩ (fun _ => defaultKey)
        batchInit [BEvent.atom (Atom.ok 1), BEvent.atom (Atom.ok 2), BEvent.tick]
      = [Atom.ok []]
    ∧ ([(Atom.ok [] : Atom (List Nat) String String)] ≠ [Atom.ok [1, 2]]) := by
  decide

/-- C4 as amended: with both a count n and a timeout, reaching n items
flushes a bucket immediately, while a heartbeat tick flushes only buckets
holding at least n items — with yieldRemaining set, any nonempty bucket —
and when no bucket passes that filter a tick emits one empty array exactly
when yieldEmpty is set, even if unready items are pending. -/
theorem batch_count_timeout_flush {α ε υ : Type} (nn : Nat) (h1 : 1 ≤ nn) (yr ye : Bool)
    (vs : List α) (hvs : vs.length < nn) (ws : List α) (hws : ws.length = nn) :
    (batchRun (ε := ε) (υ := υ) ⟨some nn, true, yr, ye⟩ (fun _ => defaultKey) batchInit
        ((vs.map fun v => BEvent.atom (Atom.ok v)) ++ [BEvent.tick])
      = if yr = true ∧ vs.isEmpty = false then [Atom.ok vs]
        else if ye = true then [Atom.ok []] else [])
    ∧ (batchRun (ε := ε) (υ := υ) ⟨some nn, true, yr, ye⟩ (fun _ => defaultKey) batchInit
        (ws.map fun w => BEvent.atom (Atom.ok w))
      = [Atom.ok ws]) := by
  constructor
  · rw [batchRun_empty_bucket]
    have h := batch_arrivals (ε := ε) (υ := υ) ⟨some nn, true, yr, ye⟩ nn rfl h1 vs []
      [BEvent.tick] (by simp only [List.length_nil]; omega)
    simp only [List.length_nil, Nat.cast_zero] at h
    rw [h]
    rw [splitGo_small nn vs [] (by simpa using hvs)]
    dsimp only
    simp only [List.nil_append]
    rw [batchRun_cons_tick]
    cases vs with
    | nil =>
      have hsum : readySum (⟨some nn, true, yr, ye⟩ : BatchOptions)
          [(defaultKey, ([] : List α))] = 0 := readySum_zero _ _ (by simp)
      cases ye <;> simp [batchStep, batchRun, hsum]
    | cons w ws' =>
      have hlt : ¬ nn ≤ (w :: ws').length := by omega
      cases yr with
      | false =>
        have hsum : readySum (⟨some nn, true, false, ye⟩ : BatchOptions)
            [(defaultKey, w :: ws')] = 0 := by
          simp only [readySum, List.filter, Option.getD_some]
          rw [Bool.or_false, decide_eq_false hlt]
          simp
        cases ye <;> simp [batchStep, batchRun, hsum]
      | true =>
        have hsumne : readySum (⟨some nn, true, true, ye⟩ : BatchOptions)
            [(defaultKey, w :: ws')] ≠ 0 := by
          simp [readySum, List.filter]
        have htake : (w :: ws').take nn = w :: ws' :=
          List.take_of_length_le (by omega)
        have hflush : tickFlush (⟨some nn, true, true, ye⟩ : BatchOptions)
            [(defaultKey, w :: ws')] =
            ([(defaultKey, (w :: ws').drop nn)], [(w :: ws').take nn]) := by
          simp [tickFlush]
        simp only [batchStep, eq_self_iff_true, if_true]
        rw [if_neg hsumne]
        simp only [hflush, htake]
        simp [batchRun]
  · rw [batchRun_empty_bucket]
    have h := batch_arrivals (ε := ε) (υ := υ) ⟨some nn, true, yr, ye⟩ nn rfl h1 ws []
      ([] : List (BEvent α ε υ)) (by simp only [List.length_nil]; omega)
    simp only [List.length_nil, Nat.cast_zero, List.append_nil] at h
    rw [h]
    rw [splitGo_exact nn ws [] (by simp only [List.length_nil]; omega) (by simpa using hws)]
    simp [batchRun]

/-- Concrete instance of the amended C4: with n = 3, a tick flushes a pending
two-item bucket when yieldRemaining is set. -/
theorem batch_count_timeout_flush_witness :
    batchRun (ε := String) (υ := String) ⟨some 3, true, true, false⟩ (fun _ => defaultKey)
        batchInit (([1, 2].map fun v => BEvent.atom (Atom.ok v)) ++ [BEvent.tick])
      = [Atom.ok [1, 2]] := by
  have h := (batch_count_timeout_flush (α := Nat) (ε := String) (υ := String) 3 (by norm_num)
    true false [1, 2] (by norm_num) [1, 2, 3] (by norm_num)).1
  rw [h]
  rfl

/-- Attribution of merge output distributes over append. -/
lemma innerOutputs_append {β ε υ : Type} (out1 out2 : List (MOut β ε υ)) (id : Nat) :
    innerOutputs (out1 ++ out2) id = innerOutputs out1 id ++ innerOutputs out2 id :=
  List.filterMap_append out1 out2 _

/-- Attribution of a single outer emission. -/
lemma innerOutputs_fromOuter {β ε υ : Type} (a : Atom β ε υ) (id : Nat) :
    innerOutputs [MOut.fromOuter a] id = [] := rfl

/-- Attribution of a single inner emission. -/
lemma innerOutputs_fromInner {β ε υ : Type} (j : Nat) (a : Atom β ε υ) (id : Nat) :
    innerOutputs [MOut.fromInner j a] id = if j = id then [a] else [] := by
  by_cases h : j = id <;> simp [innerOutputs, h]

/-- Replacing the value of a present key leaves the key list unchanged. -/
lemma bucketsSet_map_fst {κ ρ : Type} [DecidableEq κ] (k : κ) (r : ρ) :
    ∀ l : List (κ × ρ), assocFind k l ≠ none →
      (bucketsSet k r l).map Prod.fst = l.map Prod.fst := by
  intro l
  induction l with
  | nil => intro h; simp [assocFind] at h
  | cons p rest ih =>
    intro h
    by_cases hp : p.1 = k
    · simp [bucketsSet, hp]
    · simp only [assocFind, if_neg hp] at h
      simp [bucketsSet, hp, ih h]

/-- Members of a key-nodup association list after a replacement: the new
entry, or an untouched entry with a different key. -/
lemma bucketsSet_mem_of_nodup {κ ρ : Type} [DecidableEq κ] (k : κ) (r : ρ) :
    ∀ l : List (κ × ρ), (l.map Prod.fst).Nodup →
      ∀ q ∈ bucketsSet k r l, q = (k, r) ∨ (q ∈ l ∧ q.1 ≠ k) := by
  intro l
  induction l with
  | nil =>
    intro _ q hq
    simp only [bucketsSet] at hq
    left
    simpa using hq
  | cons p rest ih =>
    intro hnd q hq
    simp only [List.map_cons, List.nodup_cons] at hnd
    by_cases hp : p.1 = k
    · simp only [bucketsSet, if_pos hp] at hq
      rcases List.mem_cons.mp hq with hq | hq
      · left; exact hq
      · right
        refine ⟨List.mem_cons_of_mem _ hq, ?_⟩
        intro hqk
        apply hnd.1
        rw [← hp] at hqk
        rw [← hqk]
        exact List.mem_map_of_mem Prod.fst hq
    · simp only [bucketsSet, if_neg hp] at hq
      rcases List.mem_cons.mp hq with hq | hq
      · right
        refine ⟨by rw [hq]; exact List.mem_cons_self _ _, by rw [hq]; exact hp⟩
      · rcases ih hnd.2 q hq with h | h
        · left; exact h
        · right; exact ⟨List.mem_cons_of_mem _ h.1, h.2⟩

/-- Erasing a key keeps only entries of the original list. -/
lemma assocErase_sub {κ ρ : Type} [DecidableEq κ] (k : κ) :
    ∀ l : List (κ × ρ), ∀ q ∈ assocErase k l, q ∈ l := by
  intro l
  induction l with
  | nil => intro q hq; simp [assocErase] at hq
  | cons p rest ih =>
    intro q hq
    by_cases hp : p.1 = k
    · simp only [assocErase, if_pos hp] at hq
      exact List.mem_cons_of_mem _ hq
    · simp only [assocErase, if_neg hp] at hq
      rcases List.mem_cons.mp hq with hq | hq
      · rw [hq]; exact List.mem_cons_self _ _
      · exact List.mem_cons_of_mem _ (ih q hq)

/-- An entry with a different key survives the erase. -/
lemma assocErase_mem_of_ne {κ ρ : Type} [DecidableEq κ] (k : κ) :
    ∀ l : List (κ × ρ), ∀ q ∈ l, q.1 ≠ k → q ∈ assocErase k l := by
  intro l
  induction l with
  | nil => intro q hq; simp at hq
  | cons p rest ih =>
    intro q hq hqk
    by_cases hp : p.1 = k
    · simp only [assocErase, if_pos hp]
      rcases List.mem_cons.mp hq with hq | hq
      · exact absurd (hq ▸ hp) hqk
      · exact hq
    · simp only [assocErase, if_neg hp]
      rcases List.mem_cons.mp hq with hq | hq
      · rw [hq]; exact List.mem_cons_self _ _
      · exact List.mem_cons_of_mem _ (ih q hq hqk)

/-- Erasing a key preserves key distinctness. -/
lemma assocErase_keys_nodup {κ ρ : Type} [DecidableEq κ] (k : κ) :
    ∀ l : List (κ × ρ), (l.map Prod.fst).Nodup → ((assocErase k l).map Prod.fst).Nodup := by
  intro l
  induction l with
  | nil => intro _; simp [assocErase]
  | cons p rest ih =>
    intro h
    simp only [List.map_cons, List.nodup_cons] at h
    by_cases hp : p.1 = k
    · simp only [assocErase, if_pos hp]
      exact h.2
    · simp only [assocErase, if_neg hp, List.map_cons, List.nodup_cons]
      refine ⟨?_, ih h.2⟩
      intro hmem
      rcases List.mem_map.mp hmem with ⟨q, hq, hqeq⟩
      exact h.1 (List.mem_map.mpr ⟨q, assocErase_sub k rest q hq, hqeq⟩)

/-- Invariant of the merge loop relating the tagged output to the state: each
open inner stream has emitted a prefix of its discovered sub-stream and
retains exactly the rest, identifiers are distinct and in range, an
identifier that is no longer open has emitted its whole sub-stream, and once
the outer is exhausted no outer element remains. -/
def MInv {β ε υ : Type} (out : List (MOut β ε υ)) (s : MState β ε υ) : Prop :=
  (∀ p ∈ s.inners, p.1 < s.discovered.length ∧ innerOutputs out p.1 ++ p.2 = discoveredAt s p.1)
  ∧ ((s.inners.map Prod.fst).Nodup)
  ∧ (∀ id, id ∉ s.inners.map Prod.fst → innerOutputs out id = discoveredAt s id)
  ∧ (s.outerDone = true → s.outerRem = [])

/-- One merge step preserves the invariant. -/
lemma mergeStep_inv {β ε υ : Type} (s : MState β ε υ) (out : List (MOut β ε υ)) (c : Nat)
    (h : MInv out s) : MInv (out ++ (mergeStep s c).2) (mergeStep s c).1 := by
  obtain ⟨h1, h2, h3, h4⟩ := h
  cases c with
  | zero =>
    by_cases hd : s.outerDone = true
    · rw [show mergeStep s 0 = (s, []) from by simp [mergeStep, hd]]
      exact ⟨by simpa using h1, h2, by simpa using h3, h4⟩
    · have hd' : s.outerDone = false := by
        cases hh : s.outerDone
        · rfl
        · exact absurd hh hd
      cases ho : s.outerRem with
      | nil =>
        rw [show mergeStep s 0 = ({ s with outerDone := true }, []) from by
          simp [mergeStep, hd', ho]]
        exact ⟨by simpa using h1, h2, by simpa using h3, fun _ => ho⟩
      | cons a rest =>
        cases a with
        | ok ov =>
          cases ov with
          | plain b =>
            rw [show mergeStep s 0 =
                ({ s with outerRem := rest }, [MOut.fromOuter (Atom.ok b)]) from by
              simp [mergeStep, hd', ho]]
            refine ⟨?_, h2, ?_, by simp [hd']⟩
            · intro p hp
              have := h1 p hp
              simpa [innerOutputs_append, innerOutputs_fromOuter, discoveredAt] using this
            · intro id hid
              have := h3 id hid
              simpa [innerOutputs_append, innerOutputs_fromOuter, discoveredAt] using this
          | sub l =>
            rw [show mergeStep s 0 =
                ({ s with
                    outerRem := rest
                    discovered := s.discovered ++ [l]
                    inners := s.inners ++ [(s.discovered.length, l)] }, []) from by
              simp [mergeStep, hd', ho]]
            have hfresh : s.discovered.length ∉ s.inners.map Prod.fst := by
              intro hmem
              rcases List.mem_map.mp hmem with ⟨q, hq, hqeq⟩
              have := (h1 q hq).1
              omega
            refine ⟨?_, ?_, ?_, by simp [hd']⟩
            · intro p hp
              simp only [List.append_nil]
              rcases List.mem_append.mp hp with hp | hp
              · obtain ⟨hlt, heq⟩ := h1 p hp
                refine ⟨by simp only [List.length_append]; omega, ?_⟩
                rw [show discoveredAt
                    { s with
                        outerRem := rest
                        discovered := s.discovered ++ [l]
                        inners := s.inners ++ [(s.discovered.length, l)] } p.1
                    = discoveredAt s p.1 from List.getD_append _ _ _ _ hlt]
                exact heq
              · have hp' : p = (s.discovered.length, l) := by simpa using hp
                subst hp'
                refine ⟨by simp, ?_⟩
                have hout : innerOutputs out s.discovered.length = [] := by
                  have := h3 s.discovered.length hfresh
                  rw [this, discoveredAt, List.getD_eq_default _ _ (le_refl _)]
                simp only [hout, List.nil_append]
                show l = discoveredAt _ s.discovered.length
                rw [discoveredAt]
                rw [List.getD_append_right _ _ _ _ (le_refl _)]
                simp
            · simp only [List.map_append, List.map_cons, List.map_nil]
              rw [List.nodup_append]
              refine ⟨h2, List.nodup_singleton _, ?_⟩
              intro x hx hx'
              have hx'' : x = s.discovered.length := by simpa using hx'
              rw [hx''] at hx
              exact hfresh hx
            · intro id hid
              simp only [List.map_append, List.map_cons, List.map_nil, List.mem_append,
                List.mem_singleton] at hid
              push_neg at hid
              have hne : id ≠ s.discovered.length := hid.2
              have := h3 id hid.1
              simp only [List.append_nil]
              rw [show discoveredAt
                  { s with
                      outerRem := rest
                      discovered := s.discovered ++ [l]
                      inners := s.inners ++ [(s.discovered.length, l)] } id
                  = discoveredAt s id from ?_]
              · exact this
              · by_cases hlt : id < s.discovered.length
                · exact List.getD_append _ _ _ _ hlt
                · rw [discoveredAt, discoveredAt]
                  dsimp only
                  rw [List.getD_eq_default _ _ (by
                      simp only [List.length_append, List.length_singleton]
                      omega),
                    List.getD_eq_default _ _ (by omega)]
        | err e =>
          rw [show mergeStep s 0 =
              ({ s with outerRem := rest }, [MOut.fromOuter (Atom.err e)]) from by
            simp [mergeStep, hd', ho]]
          refine ⟨?_, h2, ?_, by simp [hd']⟩
          · intro p hp
            have := h1 p hp
            simpa [innerOutputs_append, innerOutputs_fromOuter, discoveredAt] using this
          · intro id hid
            have := h3 id hid
            simpa [innerOutputs_append, innerOutputs_fromOuter, discoveredAt] using this
        | exception pl t =>
          rw [show mergeStep s 0 =
              ({ s with outerRem := rest }, [MOut.fromOuter (Atom.exception pl t)]) from by
            simp [mergeStep, hd', ho]]
          refine ⟨?_, h2, ?_, by simp [hd']⟩
          · intro p hp
            have := h1 p hp
            simpa [innerOutputs_append, innerOutputs_fromOuter, discoveredAt] using this
          · intro id hid
            have := h3 id hid
            simpa [innerOutputs_append, innerOutputs_fromOuter, discoveredAt] using this
  | succ id =>
    cases hfind : assocFind id s.inners with
    | none =>
      rw [show mergeStep s (id + 1) = (s, []) from by simp [mergeStep, hfind]]
      exact ⟨by simpa using h1, h2, by simpa using h3, h4⟩
    | some rem =>
      have hmem : (id, rem) ∈ s.inners := assocFind_mem hfind
      have hrem' : (if s.outerDone = true then s.outerRem else s.outerRem.tail) = [] →
          True := fun _ => trivial
      have h4' : ∀ (inn : List (Nat × List (Atom β ε υ))),
          (MState.mk (if s.outerDone = true then s.outerRem else s.outerRem.tail)
            s.outerDone s.discovered inn).outerDone = true →
          (if s.outerDone = true then s.outerRem else s.outerRem.tail) = [] := by
        intro inn hdone
        simp only at hdone
        rw [if_pos hdone, h4 hdone]
      cases rem with
      | nil =>
        rw [show mergeStep s (id + 1) =
            (⟨if s.outerDone = true then s.outerRem else s.outerRem.tail, s.outerDone,
              s.discovered, assocErase id s.inners⟩, []) from by
          simp [mergeStep, hfind]]
        refine ⟨?_, assocErase_keys_nodup id _ h2, ?_, h4' _⟩
        · intro p hp
          have := h1 p (assocErase_sub id _ p hp)
          simpa [discoveredAt] using this
        · intro idd hidd
          simp only [List.append_nil]
          by_cases hid : idd = id
          · subst hid
            have := (h1 (idd, []) hmem).2
            simpa [discoveredAt] using this
          · refine (?_ : innerOutputs out idd = discoveredAt s idd)
            refine h3 idd ?_
            intro hmem'
            rcases List.mem_map.mp hmem' with ⟨q, hq, hqeq⟩
            exact hidd (List.mem_map.mpr
              ⟨q, assocErase_mem_of_ne id _ q hq (by rw [hqeq]; exact hid), hqeq⟩)
      | cons a arest =>
        rw [show mergeStep s (id + 1) =
            (⟨if s.outerDone = true then s.outerRem else s.outerRem.tail, s.outerDone,
              s.discovered, bucketsSet id arest s.inners⟩, [MOut.fromInner id a]) from by
          simp [mergeStep, hfind]]
        have hkeys : (bucketsSet id arest s.inners).map Prod.fst = s.inners.map Prod.fst :=
          bucketsSet_map_fst id arest s.inners (by rw [hfind]; simp)
        have hidmem : id ∈ s.inners.map Prod.fst := List.mem_map_of_mem Prod.fst hmem
        refine ⟨?_, by rw [hkeys]; exact h2, ?_, h4' _⟩
        · intro p hp
          rcases bucketsSet_mem_of_nodup id arest s.inners h2 p hp with hp' | ⟨hp', hne⟩
          · subst hp'
            obtain ⟨hlt, heq⟩ := h1 (id, a :: arest) hmem
            refine ⟨hlt, ?_⟩
            simp only [innerOutputs_append, innerOutputs_fromInner, if_pos rfl]
            show (innerOutputs out id ++ [a]) ++ arest = _
            rw [List.append_assoc]
            simpa [discoveredAt] using heq
          · obtain ⟨hlt, heq⟩ := h1 p hp'
            refine ⟨hlt, ?_⟩
            simp only [innerOutputs_append, innerOutputs_fromInner, if_neg (Ne.symm hne)]
            simpa [discoveredAt] using heq
        · intro idd hidd
          rw [hkeys] at hidd
          have hne : id ≠ idd := by
            intro hcon
            rw [hcon] at hidmem
            exact hidd hidmem
          simp only [innerOutputs_append, innerOutputs_fromInner, if_neg hne,
            List.append_nil]
          have := h3 idd hidd
          simpa [discoveredAt] using this

/-- A full merge run preserves the invariant. -/
lemma mergeRun_inv {β ε υ : Type} :
    ∀ (cs : List Nat) (s : MState β ε υ) (out : List (MOut β ε υ)),
      MInv out s → MInv (out ++ (mergeRun s cs).1) (mergeRun s cs).2 := by
  intro cs
  induction cs with
  | nil => intro s out h; simpa [mergeRun] using h
  | cons c cs ih =>
    intro s out h
    have hstep := mergeStep_inv s out c h
    have hrest := ih (mergeStep s c).1 (out ++ (mergeStep s c).2) hstep
    simp only [mergeRun]
    rw [← List.append_assoc]
    exact hrest

/-- C7: under every race schedule, the atoms the merge output attributes to
one discovered sub-stream form a prefix of that sub-stream (internal order
preserved, nothing skipped), and whenever the merge loop has reached its exit
condition, every discovered sub-stream has been emitted in full and the outer
sequence is fully consumed — the stream never ends while a discovered
sub-stream has pending atoms. -/
theorem merge_order_and_termination {β ε υ : Type} (sched : List Nat)
    (outer : List (Atom (OuterVal β ε υ) ε υ)) (id : Nat) :
    (∃ t, innerOutputs (mergeRun (mergeInit outer) sched).1 id ++ t =
        discoveredAt (mergeRun (mergeInit outer) sched).2 id)
    ∧ (mergeFinished (mergeRun (mergeInit outer) sched).2 = true →
        innerOutputs (mergeRun (mergeInit outer) sched).1 id =
          discoveredAt (mergeRun (mergeInit outer) sched).2 id
        ∧ (mergeRun (mergeInit outer) sched).2.outerRem = []) := by
  have hinit : MInv ([] : List (MOut β ε υ)) (mergeInit outer) := by
    refine ⟨?_, ?_, ?_, ?_⟩
    · intro p hp; simp [mergeInit] at hp
    · simp [mergeInit]
    · intro idd _
      simp [innerOutputs, discoveredAt, mergeInit]
    · intro h; simp [mergeInit] at h
  have hinv := mergeRun_inv sched (mergeInit outer) [] hinit
  simp only [List.nil_append] at hinv
  obtain ⟨h1, _, h3, h4⟩ := hinv
  constructor
  · by_cases hmem : id ∈ ((mergeRun (mergeInit outer) sched).2.inners.map Prod.fst)
    · rcases List.mem_map.mp hmem with ⟨q, hq, hqeq⟩
      obtain ⟨_, heq⟩ := h1 q hq
      exact ⟨q.2, by rw [← hqeq]; exact heq⟩
    · exact ⟨[], by rw [List.append_nil]; exact h3 id hmem⟩
  · intro hfin
    have hfin' : (mergeRun (mergeInit outer) sched).2.outerDone = true ∧
        (mergeRun (mergeInit outer) sched).2.inners = [] := by
      unfold mergeFinished at hfin
      constructor
      · exact (Bool.and_eq_true _ _ |>.mp hfin).1
      · have := (Bool.and_eq_true _ _ |>.mp hfin).2
        exact List.isEmpty_iff.mp this
    refine ⟨?_, h4 hfin'.1⟩
    refine h3 id ?_
    rw [hfin'.2]
    simp

/-- Concrete instance of C7: one discovered sub-stream drained to completion
under an explicit schedule. -/
theorem merge_order_witness :
    innerOutputs (mergeRun (mergeInit
        [Atom.ok (OuterVal.sub [Atom.ok (10 : Nat), Atom.ok 20])]) [0, 1, 1, 1, 0]).1 0
      = discoveredAt (mergeRun (mergeInit
        [Atom.ok (OuterVal.sub (ε := String) (υ := String) [Atom.ok (10 : Nat), Atom.ok 20])])
        [0, 1, 1, 1, 0]).2 0
    ∧ (mergeRun (mergeInit
        [Atom.ok (OuterVal.sub (ε := String) (υ := String) [Atom.ok (10 : Nat), Atom.ok 20])])
        [0, 1, 1, 1, 0]).2.outerRem = [] :=
  (merge_order_and_termination [0, 1, 1, 1, 0]
    [Atom.ok (OuterVal.sub (ε := String) (υ := String) [Atom.ok (10 : Nat), Atom.ok 20])] 0).2
    (by decide)

/-- Running an interaction sequence splits over append. -/
lemma pusherRun_append {α ε υ : Type} :
    ∀ (l1 l2 : List (POp α ε υ)) (s : PusherState α ε υ),
      pusherRun s (l1 ++ l2) = pusherRun (pusherRun s l1) l2 := by
  intro l1
  induction l1 with
  | nil => intro l2 s; rfl
  | cons op rest ih =>
    intro l2 s
    cases op <;> simp only [List.cons_append, pusherRun] <;> exact ih l2 _

/-- Pushes before `done` with no pull pending simply queue up in order. -/
lemma pusherRun_pushes {α ε υ : Type} :
    ∀ (pre : List (MaybeAtom α ε υ)) (q : List (MaybeAtom α ε υ)) (em : List (Atom α ε υ)),
      pusherRun ⟨q, false, false, em, false⟩ (pre.map POp.push) =
        ⟨q ++ pre, false, false, em, false⟩ := by
  intro pre
  induction pre with
  | nil => intro q em; simp [pusherRun]
  | cons v pre ih =>
    intro q em
    simp only [List.map_cons, pusherRun, push, deliver]
    simp only [Bool.false_eq_true, if_false]
    rw [ih (q ++ [v]) em]
    simp

/-- Pushes after `done` leave the state untouched. -/
lemma pusherRun_pushes_done {α ε υ : Type} :
    ∀ (post : List (MaybeAtom α ε υ)) (q : List (MaybeAtom α ε υ)) (em : List (Atom α ε υ))
      (e : Bool),
      pusherRun ⟨q, true, false, em, e⟩ (post.map POp.push) = ⟨q, true, false, em, e⟩ := by
  intro post
  induction post with
  | nil => intro q em e; rfl
  | cons v post ih =>
    intro q em e
    simp only [List.map_cons, pusherRun, push, if_pos rfl]
    exact ih q em e

/-- After `done`, `q.length + 1` pulls drain the queue in order and then emit
end-of-stream. -/
lemma pusherRun_drain {α ε υ : Type} :
    ∀ (q : List (MaybeAtom α ε υ)) (em : List (Atom α ε υ)),
      pusherRun ⟨q, true, false, em, false⟩ (List.replicate (q.length + 1) POp.pull) =
        ⟨[], true, false, em ++ q.map normalise, true⟩ := by
  intro q
  induction q with
  | nil =>
    intro em
    simp [pusherRun, pull, List.replicate]
  | cons v q ih =>
    intro em
    have hrep : List.replicate ((v :: q).length + 1) (POp.pull : POp α ε υ) =
        POp.pull :: List.replicate (q.length + 1) POp.pull := by
      simp [List.replicate_succ]
    rw [hrep]
    show pusherRun (pull ⟨v :: q, true, false, em, false⟩)
        (List.replicate (q.length + 1) POp.pull) = _
    rw [show pull (⟨v :: q, true, false, em, false⟩ : PusherState α ε υ) =
        ⟨q, true, false, em ++ [normalise v], false⟩ from by simp [pull]]
    rw [ih (em ++ [normalise v])]
    simp

/-- The signal resumption preserves the emitted-plus-queued contents and the
done flag. -/
lemma deliver_spec {α ε υ : Type} (s : PusherState α ε υ) :
    (deliver s).emitted ++ ((deliver s).queue.map normalise) =
      s.emitted ++ s.queue.map normalise
    ∧ (deliver s).doneFlag = s.doneFlag := by
  unfold deliver
  by_cases hp : s.pending = true
  · rw [if_pos hp]
    cases hq : s.queue with
    | nil =>
      by_cases hd : s.doneFlag = true
      · rw [if_pos hd]; simp [hq]
      · rw [if_neg hd]; simp [hq]
    | cons v q => simp [hq]
  · rw [if_neg hp]; exact ⟨rfl, rfl⟩

/-- A pull preserves the emitted-plus-queued contents and the done flag. -/
lemma pull_spec {α ε υ : Type} (s : PusherState α ε υ) :
    (pull s).emitted ++ ((pull s).queue.map normalise) = s.emitted ++ s.queue.map normalise
    ∧ (pull s).doneFlag = s.doneFlag := by
  unfold pull
  by_cases he : s.ended = true
  · rw [if_pos he]; exact ⟨rfl, rfl⟩
  · rw [if_neg he]
    by_cases hp : s.pending = true
    · rw [if_pos hp]; exact ⟨rfl, rfl⟩
    · rw [if_neg hp]
      cases hq : s.queue with
      | nil =>
        by_cases hd : s.doneFlag = true
        · rw [if_pos hd]; simp [hq]
        · rw [if_neg hd]; simp [hq]
      | cons v q => simp [hq]

/-- Everything the bridge stream has emitted, followed by what is still
queued, is exactly the sequence of accepted pushes, normalised, in push
order. -/
lemma pusherRun_accepted {α ε υ : Type} :
    ∀ (ops : List (POp α ε υ)) (s : PusherState α ε υ),
      (pusherRun s ops).emitted ++ ((pusherRun s ops).queue.map normalise) =
        s.emitted ++ s.queue.map normalise ++ (acceptedGo s.doneFlag ops).map normalise := by
  intro ops
  induction ops with
  | nil => intro s; simp [pusherRun, acceptedGo]
  | cons op rest ih =>
    intro s
    cases op with
    | push v =>
      by_cases hd : s.doneFlag = true
      · have hpush : push v s = s := by unfold push; rw [if_pos hd]
        simp only [pusherRun, hpush, acceptedGo, hd, if_pos rfl]
        rw [ih s]
        simp [hd]
      · have hd' : s.doneFlag = false := by
          cases hh : s.doneFlag
          · rfl
          · exact absurd hh hd
        simp only [pusherRun, push, hd', Bool.false_eq_true, if_false]
        have hspec := deliver_spec (⟨s.queue ++ [v], false, s.pending, s.emitted, s.ended⟩ :
          PusherState α ε υ)
        rw [ih _, hspec.2]
        simp only [acceptedGo, hd', Bool.false_eq_true, if_false, List.map_cons]
        rw [hspec.1]
        simp
    | done =>
      have hspec := deliver_spec ({ s with doneFlag := true } : PusherState α ε υ)
      simp only [pusherRun, doneOp, acceptedGo]
      rw [ih _, hspec.2]
      rw [hspec.1]
    | pull =>
      have hspec := pull_spec s
      simp only [pusherRun, acceptedGo]
      rw [ih _, hspec.2, hspec.1]

/-- C8: the pusher bridge contract — a pull with a buffered value returns it
immediately; a pull on an empty, unfinished bridge suspends, and the next
push or done resumes it (with the value, or with end-of-stream); a push after
done is ignored and leaves the state unchanged; the stream emits exactly the
values pushed before done, normalised and in push order, followed by
end-of-stream; and along any interaction sequence the emitted atoms form a
prefix of the accepted pushes in order. -/
theorem fromPusher_contract {α ε υ : Type} :
    (∀ (v : MaybeAtom α ε υ) (q : List (MaybeAtom α ε υ)) (d : Bool) (em : List (Atom α ε υ)),
        pull ⟨v :: q, d, false, em, false⟩ = ⟨q, d, false, em ++ [normalise v], false⟩)
    ∧ (∀ em : List (Atom α ε υ), pull ⟨[], false, false, em, false⟩ =
        ⟨[], false, true, em, false⟩)
    ∧ (∀ (v : MaybeAtom α ε υ) (em : List (Atom α ε υ)),
        push v ⟨[], false, true, em, false⟩ = ⟨[], false, false, em ++ [normalise v], false⟩)
    ∧ (∀ em : List (Atom α ε υ), doneOp ⟨[], false, true, em, false⟩ =
        ⟨[], true, false, em, true⟩)
    ∧ (∀ (v : MaybeAtom α ε υ) (q : List (MaybeAtom α ε υ)) (p : Bool)
        (em : List (Atom α ε υ)) (e : Bool), push v ⟨q, true, p, em, e⟩ = ⟨q, true, p, em, e⟩)
    ∧ (∀ (pre post : List (MaybeAtom α ε υ)),
        pusherRun pusherInit (pre.map POp.push ++ POp.done :: post.map POp.push ++
            List.replicate (pre.length + 1) POp.pull) =
          ⟨[], true, false, pre.map normalise, true⟩)
    ∧ (∀ ops : List (POp α ε υ), ∃ t, (pusherRun pusherInit ops).emitted ++ t =
        (acceptedGo false ops).map normalise) := by
  refine ⟨?_, ?_, ?_, ?_, ?_, ?_, ?_⟩
  · intro v q d em; simp [pull]
  · intro em; simp [pull]
  · intro v em; simp [push, deliver]
  · intro em; simp [doneOp, deliver]
  · intro v q p em e; simp [push]
  · intro pre post
    rw [show (pusherInit : PusherState α ε υ) = ⟨[], false, false, [], false⟩ from rfl,
      pusherRun_append, pusherRun_append, pusherRun_pushes pre [] []]
    simp only [List.nil_append]
    rw [show (pusherRun (⟨pre, false, false, [], false⟩ : PusherState α ε υ)
        (POp.done :: post.map POp.push)) =
        pusherRun (doneOp ⟨pre, false, false, [], false⟩) (post.map POp.push) from rfl]
    rw [show doneOp (⟨pre, false, false, [], false⟩ : PusherState α ε υ) =
        ⟨pre, true, false, [], false⟩ from by simp [doneOp, deliver]]
    rw [pusherRun_pushes_done post pre [] false, pusherRun_drain pre []]
    simp
  · intro ops
    refine ⟨((pusherRun pusherInit ops).queue.map normalise), ?_⟩
    have h := pusherRun_accepted ops (pusherInit : PusherState α ε υ)
    simpa [pusherInit] using h

end Windpipe
